import Mathlib

/-!
Verification of the production-queue scheduler (`src/engine.ts`, `runScheduler`).

The TypeScript source is embedded shallowly: JS objects used as string-keyed
maps become insertion-ordered association lists, JS numbers used as integers
become `Int`, the float urgency ratio becomes `ℚ`, the `throw`/`catch` control
flow becomes an `Except` value threaded through the day/session loops, and the
`while` loop over days becomes structural recursion on a fuel counter that is
in exact correspondence with the `day > 150` horizon check of the source.
-/

namespace PQ

/-- Modelled from the spec: `src/constants.ts` is not among the source files.
The spec describes the three values imported from it — the number of sessions
in a day, the cooldown (minimum number of global sessions between consecutive
units of one step) and the deadline buffer (fixed safety margin subtracted
from nominal deadlines) — as fixed numeric configuration constants, so they
are carried here as a parameter record. -/
structure Config where
  sessionsPerDay : Int
  cooldown : Int
  deadlineBuffer : Int
  deriving DecidableEq, Repr

/-- `Project` from `src/types.ts`. `subTimes` is a JS object mapping step name
to duration; it is modelled as an insertion-ordered association list. -/
structure Project where
  id : String
  name : String
  totalDemand : Int
  deadline : Int
  subTimes : List (String × Int)
  color : String
  deriving DecidableEq, Repr

/-- `ProjectStatus` from `src/types.ts`. -/
structure ProjectStatus where
  projectId : String
  subproductName : String
  unitsRemaining : Int
  moldReadySession : Int
  deriving DecidableEq, Repr

/-- `ScheduleEntry` from `src/types.ts`. -/
structure ScheduleEntry where
  day : Int
  session : Int
  projectId : String
  projectName : String
  subproductName : String
  isCompleted : Bool
  color : String
  deriving DecidableEq, Repr

/-- JS object read (`m[k]`): first match in the association list. -/
def getA : List (String × Int) → String → Option Int
  | [], _ => none
  | e :: rest, k => if e.1 == k then some e.2 else getA rest k

/-- JS object read defaulted to `0`.  In the scheduler every read of
`remainingUnits`/`moldReady` is at a key present in the map, and reads of
`durations` at an absent key (possible only when a status row names a step
that is not in `subTimes`) produce `NaN` in JS, which makes that step emit no
schedule entries; the `0` default reproduces that observable behaviour. -/
def getD (m : List (String × Int)) (k : String) : Int :=
  (getA m k).getD 0

/-- JS object write (`m[k] = v`): overwrite in place when the key exists
(keeping its position), otherwise append. -/
def setA (m : List (String × Int)) (k : String) (v : Int) : List (String × Int) :=
  match m with
  | [] => [(k, v)]
  | e :: rest => if e.1 == k then (k, v) :: rest else e :: setA rest k v

/-- The `SchedulerProject` class of `src/engine.ts` (fields only). -/
structure SchedulerProject where
  id : String
  name : String
  deadline : Int
  durations : List (String × Int)
  remainingUnits : List (String × Int)
  moldReady : List (String × Int)
  color : String
  deriving DecidableEq, Repr

/-- The `SchedulerProject` constructor (engine.ts lines 13-27): the effective
deadline is `p.deadline - DEADLINE_BUFFER`, and the statuses with matching
`projectId` populate `remainingUnits` and `moldReady`. -/
def buildProject (cfg : Config) (p : Project) (statuses : List ProjectStatus) :
    SchedulerProject :=
  let relevant := statuses.filter fun st => st.projectId == p.id
  { id := p.id
    name := p.name
    deadline := p.deadline - cfg.deadlineBuffer
    durations := p.subTimes
    color := p.color
    remainingUnits := relevant.foldl (fun m st => setA m st.subproductName st.unitsRemaining) []
    moldReady := relevant.foldl (fun m st => setA m st.subproductName st.moldReadySession) [] }

/-- `get totalSessionsRemaining` (engine.ts lines 29-33): sum over the keys of
`remainingUnits` of `remainingUnits[s] * durations[s]`. -/
def SchedulerProject.totalSessionsRemaining (p : SchedulerProject) : Int :=
  (p.remainingUnits.map Prod.fst).foldl
    (fun sum s => sum + getD p.remainingUnits s * getD p.durations s) 0

/-- `get isComplete` (engine.ts lines 35-37): every value of `remainingUnits`
is exactly `0`. -/
def SchedulerProject.isComplete (p : SchedulerProject) : Bool :=
  p.remainingUnits.all fun e => e.2 == 0

/-- The two error messages thrown in `runScheduler`, represented structurally.
`deadline nm d` models the string thrown at engine.ts line 74, which
interpolates `p.name` and `p.deadline + DEADLINE_BUFFER`; `limit` models the
fixed string thrown at line 53. -/
inductive SchedulerError where
  | deadline (nm : String) (shownDay : Int)
  | limit
  deriving DecidableEq, Repr

/-- The `validSubs` filter (engine.ts lines 77-94) for one project at session
`sess` of some day, with global session index `g` and day occupancy `occ`
(the list of occupied session numbers): positive remaining units, cooldown
satisfied, atomic fit within the day, and no occupied session inside the
duration window. -/
def validSubs (cfg : Config) (occ : List Int) (sess g : Int) (p : SchedulerProject) :
    List String :=
  (p.remainingUnits.map Prod.fst).filter fun s =>
    let units := getD p.remainingUnits s
    let duration := getD p.durations s
    decide (0 < units) &&
    decide (getD p.moldReady s ≤ g) &&
    decide (sess + duration - 1 ≤ cfg.sessionsPerDay) &&
    ((List.range duration.toNat).all fun k : Nat => !(occ.contains (sess + (k : Int))))

/-- One candidate of the selection loop (engine.ts lines 69-99): the index of
the project in the working array (the JS code mutates the array element in
place, so the commit step needs the position), the project value, and its
eligible steps. -/
structure Candidate where
  idx : Nat
  proj : SchedulerProject
  subs : List String
  deriving DecidableEq, Repr

/-- The candidate-collection loop (engine.ts lines 69-99).  `i` is the index of
the head of the remaining project list inside the full working array.  A
not-yet-complete project whose effective deadline is already exceeded aborts
the whole simulation (the `throw` at line 74). -/
def collectCandidates (cfg : Config) (occ : List Int) (day sess g : Int) :
    Nat → List SchedulerProject → Except SchedulerError (List Candidate)
  | _, [] => .ok []
  | i, p :: rest =>
    if p.isComplete then collectCandidates cfg occ day sess g (i + 1) rest
    else if p.deadline < day then
      .error (.deadline p.name (p.deadline + cfg.deadlineBuffer))
    else
      let vs := validSubs cfg occ sess g p
      match collectCandidates cfg occ day sess g (i + 1) rest with
      | .error e => .error e
      | .ok cs => .ok (if vs.isEmpty then cs else ⟨i, p, vs⟩ :: cs)

/-- The urgency score (engine.ts lines 104-110):
`totalSessionsRemaining / max(0.1, deadline - (day - 1))`, computed here in
`ℚ` (the source computes in JS floats). -/
def priority (day : Int) (p : SchedulerProject) : ℚ :=
  (p.totalSessionsRemaining : ℚ) / max (1 / 10) ((p.deadline : ℚ) - ((day : ℚ) - 1))

/-- `candidates.sort(byUrgencyDescending)[0]` (engine.ts lines 104-112).
JS `Array.prototype.sort` is stable, so the head of the sorted array is the
first candidate attaining the maximal urgency; the fold below computes exactly
that element. -/
def pickBest (day : Int) : List Candidate → Option Candidate
  | [] => none
  | c :: cs =>
    some (cs.foldl (fun best c2 =>
      if priority day best.proj < priority day c2.proj then c2 else best) c)

/-- `best.validSubs.reduce((a, b) => durations[a] >= durations[b] ? a : b)`
(engine.ts lines 113-115): the first eligible step of maximal duration. -/
def pickSub (p : SchedulerProject) : List String → Option String
  | [] => none
  | s :: rest =>
    some (rest.foldl (fun a b =>
      if getD p.durations b ≤ getD p.durations a then a else b) s)

/-- The schedule entries pushed by one commit (engine.ts lines 123-135). -/
def mkEntries (day sess : Int) (p : SchedulerProject) (sub : String) (duration : Int) :
    List ScheduleEntry :=
  (List.range duration.toNat).map fun i : Nat =>
    { day := day
      session := sess + (i : Int)
      projectId := p.id
      projectName := p.name
      subproductName := sub
      isCompleted := false
      color := p.color }

/-- The per-day working state: the (mutated-in-place in JS) project array, the
occupied session numbers of the current day, and the schedule accumulated
since the start of the whole run. -/
structure SimState where
  ps : List SchedulerProject
  occ : List Int
  sched : List ScheduleEntry
  deriving DecidableEq, Repr

/-- One iteration of the session loop (engine.ts lines 64-136).  On the
`throw` at line 74 the error value carries the schedule accumulated so far,
because the `catch` at line 140 returns the outer `schedule` array. -/
def sessionStep (cfg : Config) (day sess : Int) (st : SimState) :
    Except (List ScheduleEntry × SchedulerError) SimState :=
  if st.occ.contains sess then .ok st
  else
    match collectCandidates cfg st.occ day sess
        ((day - 1) * cfg.sessionsPerDay + sess) 0 st.ps with
    | .error e => .error (st.sched, e)
    | .ok cands =>
      match pickBest day cands with
      | none => .ok st
      | some best =>
        match pickSub best.proj best.subs with
        | none => .ok st
        | some bestS =>
          .ok { ps := st.ps.set best.idx
                  { best.proj with
                    remainingUnits := setA best.proj.remainingUnits bestS
                      (getD best.proj.remainingUnits bestS - 1),
                    moldReady := setA best.proj.moldReady bestS
                      ((day - 1) * cfg.sessionsPerDay + sess +
                        getD best.proj.durations bestS + cfg.cooldown) },
                occ := st.occ ++ (List.range (getD best.proj.durations bestS).toNat).map
                  (fun i : Nat => sess + (i : Int)),
                sched := st.sched ++ mkEntries day sess best.proj bestS
                  (getD best.proj.durations bestS) }

/-- The session numbers `1 .. SESSIONS_PER_DAY` iterated by the inner loop. -/
def sessionNumbers (cfg : Config) : List Int :=
  (List.range cfg.sessionsPerDay.toNat).map fun i : Nat => (i : Int) + 1

/-- The session loop of one day, folding `sessionStep` over the (remaining)
session numbers. -/
def runDay (cfg : Config) (day : Int) :
    List Int → SimState → Except (List ScheduleEntry × SchedulerError) SimState
  | [], st => .ok st
  | s :: rest, st =>
    match sessionStep cfg day s st with
    | .error e => .error e
    | .ok st' => runDay cfg day rest st'

/-- The result record of `runScheduler`: the schedule plus the optional
(caught) error. -/
structure SchedulerResult where
  schedule : List ScheduleEntry
  error : Option SchedulerError
  deriving DecidableEq, Repr

/-- The day loop (`while` at engine.ts lines 52-138).  The `fuel` argument
makes the recursion structural; `runDays` below instantiates it with
`(151 - day).toNat`, so that `fuel = 0` can only happen together with
`day > 150` and the inner `fuel` pattern-match branch for `0` is dead code:
the loop is always left through one of the two explicit checks, exactly as in
the source. -/
def runDaysAux (cfg : Config) (startDay : Int) (blockedSessions : List Int) :
    Nat → Int → List SchedulerProject → List ScheduleEntry → SchedulerResult
  | fuel, day, ps, sched =>
    if ps.all SchedulerProject.isComplete then ⟨sched, none⟩
    else if 150 < day then ⟨sched, some .limit⟩
    else
      match fuel with
      | 0 => ⟨sched, some .limit⟩
      | fuel' + 1 =>
        let occ0 : List Int :=
          if day = startDay then
            blockedSessions.filter (fun s => decide (1 ≤ s) && decide (s ≤ cfg.sessionsPerDay))
          else []
        match runDay cfg day (sessionNumbers cfg) ⟨ps, occ0, sched⟩ with
        | .error (sch, e) => ⟨sch, some e⟩
        | .ok st => runDaysAux cfg startDay blockedSessions fuel' (day + 1) st.ps st.sched

/-- The day loop entered at `day`, with the fuel fixed by the horizon. -/
def runDays (cfg : Config) (startDay : Int) (blockedSessions : List Int)
    (day : Int) (ps : List SchedulerProject) (sched : List ScheduleEntry) : SchedulerResult :=
  runDaysAux cfg startDay blockedSessions (151 - day).toNat day ps sched

/-- `runScheduler` (engine.ts lines 40-143). -/
def runScheduler (cfg : Config) (projects : List Project) (statuses : List ProjectStatus)
    (startDay : Int) (blockedSessions : List Int) : SchedulerResult :=
  runDays cfg startDay blockedSessions startDay
    (projects.map fun p => buildProject cfg p statuses) []

/-! ### Commit blocks and the simulation invariant

Every commit of the session loop (engine.ts lines 112-135) is recorded
abstractly as a `Block`; the returned schedule is shown to be the
concatenation of the rendered blocks, and the invariant `Inv` captures the
bookkeeping facts relating the blocks to the evolving working state. -/

structure Block where
  day : Int
  sess : Int
  idx : Nat
  pid : String
  pname : String
  sub : String
  dur : Int
  color : String
  deriving DecidableEq, Repr

/-- The schedule entries produced by one commit. -/
def renderBlock (b : Block) : List ScheduleEntry :=
  (List.range b.dur.toNat).map fun i : Nat =>
    { day := b.day
      session := b.sess + (i : Int)
      projectId := b.pid
      projectName := b.pname
      subproductName := b.sub
      isCompleted := false
      color := b.color }

/-- The global session index of a block's first session. -/
def blockStart (cfg : Config) (b : Block) : Int :=
  (b.day - 1) * cfg.sessionsPerDay + b.sess

/-- Strict chronological order with non-overlap inside a day. -/
def blockOrder (b1 b2 : Block) : Prop :=
  b1.day < b2.day ∨ (b1.day = b2.day ∧ b1.sess + b1.dur ≤ b2.sess)

/-- Two blocks commit units of the same step of the same working project. -/
def sameKey (b1 b2 : Block) : Prop := b1.idx = b2.idx ∧ b1.sub = b2.sub

/-- The simulation invariant, relating the initial working projects `ps0`,
the current working projects `ps`, and the commit blocks so far. -/
structure Inv (cfg : Config) (startDay : Int) (blocked : List Int)
    (ps0 ps : List SchedulerProject) (blocks : List Block) : Prop where
  len : ps.length = ps0.length
  frame : ∀ (i : Nat) (p0 p : SchedulerProject), ps0[i]? = some p0 → ps[i]? = some p →
    p.id = p0.id ∧ p.name = p0.name ∧ p.deadline = p0.deadline ∧
    p.durations = p0.durations ∧ p.color = p0.color ∧
    p.remainingUnits.map Prod.fst = p0.remainingUnits.map Prod.fst ∧
    p.moldReady.map Prod.fst = p0.moldReady.map Prod.fst
  keysEq : ∀ (i : Nat) (p : SchedulerProject), ps[i]? = some p →
    p.remainingUnits.map Prod.fst = p.moldReady.map Prod.fst
  completeStable : ∀ (i : Nat) (p0 : SchedulerProject), ps0[i]? = some p0 →
    p0.isComplete = true → ps[i]? = some p0
  blockLink : ∀ b ∈ blocks, ∃ p0, ps0[b.idx]? = some p0 ∧ b.pid = p0.id ∧
    b.pname = p0.name ∧ b.color = p0.color ∧ b.dur = getD p0.durations b.sub ∧
    b.sub ∈ p0.remainingUnits.map Prod.fst
  durPos : ∀ b ∈ blocks, 1 ≤ b.dur
  sessBounds : ∀ b ∈ blocks, 1 ≤ b.sess ∧ b.sess + b.dur - 1 ≤ cfg.sessionsPerDay
  dayLB : ∀ b ∈ blocks, startDay ≤ b.day
  dayUB : ∀ b ∈ blocks, b.day ≤ 150
  blockedFree : ∀ b ∈ blocks, b.day = startDay →
    ∀ s : Int, b.sess ≤ s → s < b.sess + b.dur → s ∉ blocked
  ordered : blocks.Pairwise blockOrder
  cool : 0 ≤ cfg.cooldown → blocks.Pairwise (fun b1 b2 => sameKey b1 b2 →
    blockStart cfg b1 + b1.dur + cfg.cooldown ≤ blockStart cfg b2)
  moldLB : 0 ≤ cfg.cooldown → ∀ b ∈ blocks, ∀ p, ps[b.idx]? = some p →
    blockStart cfg b + b.dur + cfg.cooldown ≤ getD p.moldReady b.sub

/-! ### Maximal runs on the schedule grid -/

/-- Some entry of `S` occupies slot `(d, s)` with the given project id and
step name. -/
def entryOcc (S : List ScheduleEntry) (d s : Int) (pid sub : String) : Prop :=
  ∃ e ∈ S, e.day = d ∧ e.session = s ∧ e.projectId = pid ∧ e.subproductName = sub

instance instDecidableEntryOcc (S : List ScheduleEntry) (d s : Int) (pid sub : String) :
    Decidable (entryOcc S d s pid sub) :=
  decidable_of_iff (∃ e ∈ S, e.day = d ∧ e.session = s ∧ e.projectId = pid ∧
    e.subproductName = sub) Iff.rfl

/-- The global session index of slot `(d, s)` (engine.ts line 65). -/
def gIdx (cfg : Config) (d s : Int) : Int := (d - 1) * cfg.sessionsPerDay + s

/-- `[a, b]` is a maximal run of consecutive sessions on day `d` all carrying
the same `(projectId, subproductName)` key. -/
def MaximalRun (S : List ScheduleEntry) (d a b : Int) (pid sub : String) : Prop :=
  a ≤ b ∧ (∀ s : Int, a ≤ s → s ≤ b → entryOcc S d s pid sub) ∧
  ¬ entryOcc S d (a - 1) pid sub ∧ ¬ entryOcc S d (b + 1) pid sub

/-- The atomicity property of claim C2: every maximal run has length exactly
the configured duration of its step and lies inside the day. -/
def AtomicRuns (cfg : Config) (projects : List Project) (S : List ScheduleEntry) : Prop :=
  ∀ (d a b : Int) (pid sub : String), MaximalRun S d a b pid sub →
    ∃ p ∈ projects, p.id = pid ∧ b - a + 1 = getD p.subTimes sub ∧
      1 ≤ a ∧ b ≤ cfg.sessionsPerDay

/-- The cooldown property of claim C3: between any two chronologically
ordered maximal runs of the same key, the global-session gap between the end
of the earlier one and the start of the later one is at least the cooldown. -/
def CooldownGaps (cfg : Config) (S : List ScheduleEntry) : Prop :=
  ∀ (d1 a1 b1 d2 a2 b2 : Int) (pid sub : String),
    MaximalRun S d1 a1 b1 pid sub → MaximalRun S d2 a2 b2 pid sub →
    gIdx cfg d1 b1 < gIdx cfg d2 a2 →
    gIdx cfg d1 b1 + 1 + cfg.cooldown ≤ gIdx cfg d2 a2

/-! ### Projects without status rows are inert -/

/-- Shift a candidate index to account for one extra (skipped) project
inserted at position `t` of the working array. -/
def shiftC (t : Nat) (c : Candidate) : Candidate :=
  if t ≤ c.idx then ⟨c.idx + 1, c.proj, c.subs⟩ else c

/-- The pair `(projectId, subproductName)` appears among the status rows. -/
def HasStatus (statuses : List ProjectStatus) (pid sub : String) : Prop :=
  ∃ st ∈ statuses, st.projectId = pid ∧ st.subproductName = sub

/-- Every key of a working project's `remainingUnits` map is backed by a
status row of that project. -/
def GoodProj (statuses : List ProjectStatus) (p : SchedulerProject) : Prop :=
  ∀ s ∈ p.remainingUnits.map Prod.fst, HasStatus statuses p.id s

/-- All working projects and all accumulated entries are backed by status
rows. -/
def GoodState (statuses : List ProjectStatus) (st : SimState) : Prop :=
  (∀ p ∈ st.ps, GoodProj statuses p) ∧
  (∀ e ∈ st.sched, HasStatus statuses e.projectId e.subproductName)

/-- A concrete one-project candidate used to instantiate the selection-step
theorem: index 0, one step `"A"` of duration 1 with one unit remaining. -/
def wCand : Candidate :=
  ⟨0, ⟨"a", "A", 5, [("A", 1)], [("A", 1)], [("A", 0)], "c"⟩, ["A"]⟩

/-! ### Theorems -/

/-! ### Association-list lemmas -/

theorem getA_setA_self (m : List (String × Int)) (k : String) (v : Int) :
    getA (setA m k v) k = some v := by
  induction m with
  | nil => simp [setA, getA]
  | cons e rest ih =>
    by_cases h : e.1 = k
    · simp [setA, h, getA]
    · simp only [setA, beq_iff_eq, if_neg h, getA, ih]

theorem getA_setA_ne (m : List (String × Int)) (k k' : String) (v : Int) (h : k' ≠ k) :
    getA (setA m k v) k' = getA m k' := by
  induction m with
  | nil =>
    simp only [setA, getA, beq_iff_eq]
    rw [if_neg (fun hc => h hc.symm)]
  | cons e rest ih =>
    by_cases he : e.1 = k
    · subst he
      simp only [setA, beq_self_eq_true, if_pos, getA, beq_iff_eq]
      rw [if_neg (fun hc => h hc.symm), if_neg (fun hc => h hc.symm)]
    · simp only [setA, beq_iff_eq, if_neg he, getA, ih]

theorem getD_setA_self (m : List (String × Int)) (k : String) (v : Int) :
    getD (setA m k v) k = v := by
  simp [getD, getA_setA_self]

theorem getD_setA_ne (m : List (String × Int)) (k k' : String) (v : Int) (h : k' ≠ k) :
    getD (setA m k v) k' = getD m k' := by
  simp [getD, getA_setA_ne m k k' v h]

theorem setA_keys_of_mem (m : List (String × Int)) (k : String) (v : Int)
    (h : k ∈ m.map Prod.fst) : (setA m k v).map Prod.fst = m.map Prod.fst := by
  induction m with
  | nil => simp at h
  | cons e rest ih =>
    by_cases he : e.1 = k
    · simp [setA, he]
    · simp only [List.map_cons, List.mem_cons] at h
      rcases h with h | h

      · exact absurd h.symm he
      · simp [setA, he, ih h]

theorem setA_keys (m : List (String × Int)) (k : String) (v : Int) :
    (setA m k v).map Prod.fst =
      (if k ∈ m.map Prod.fst then m.map Prod.fst else m.map Prod.fst ++ [k]) := by
  induction m with
  | nil => simp [setA]
  | cons e rest ih =>
    by_cases he : e.1 = k
    · simp [setA, he]
    · have hne : k ≠ e.1 := fun hc => he hc.symm
      simp only [setA, beq_iff_eq, if_neg he, List.map_cons, ih]
      by_cases hm : k ∈ rest.map Prod.fst
      · simp [hm, hne]
      · simp [hm, hne]

/-- The keys produced by folding status rows into an association map depend
only on the subproduct names, not on the values written. -/
theorem foldl_setA_keys (l : List ProjectStatus) (f : ProjectStatus → Int) :
    ∀ m0 : List (String × Int),
      ((l.foldl (fun m st => setA m st.subproductName (f st)) m0).map Prod.fst) =
        l.foldl (fun ks st => if st.subproductName ∈ ks then ks else ks ++ [st.subproductName])
          (m0.map Prod.fst) := by
  induction l with
  | nil => intro m0; rfl
  | cons st rest ih =>
    intro m0
    simp only [List.foldl_cons, ih, setA_keys]

theorem mem_foldl_setA_keys (l : List ProjectStatus) (f : ProjectStatus → Int)
    (m0 : List (String × Int)) (k : String)
    (h : k ∈ (l.foldl (fun m st => setA m st.subproductName (f st)) m0).map Prod.fst) :
    k ∈ m0.map Prod.fst ∨ ∃ st ∈ l, st.subproductName = k := by
  induction l generalizing m0 with
  | nil => exact .inl h
  | cons st rest ih =>
    simp only [List.foldl_cons] at h
    rcases ih _ h with h' | h'
    · rw [setA_keys] at h'
      by_cases hm : st.subproductName ∈ m0.map Prod.fst
      · rw [if_pos hm] at h'
        exact .inl h'
      · rw [if_neg hm] at h'
        rcases List.mem_append.1 h' with h'' | h''
        · exact .inl h''
        · exact .inr ⟨st, by simp, (List.mem_singleton.1 h'').symm⟩
    · rcases h' with ⟨st', hst', hname⟩
      exact .inr ⟨st', List.mem_cons_of_mem _ hst', hname⟩

/-- The two maps built by the `SchedulerProject` constructor carry the same
keys. -/
theorem buildProject_keys_eq (cfg : Config) (p : Project) (statuses : List ProjectStatus) :
    (buildProject cfg p statuses).remainingUnits.map Prod.fst =
      (buildProject cfg p statuses).moldReady.map Prod.fst := by
  simp only [buildProject]
  rw [foldl_setA_keys _ (fun st => st.unitsRemaining),
    foldl_setA_keys _ (fun st => st.moldReadySession)]

/-- Every key of the constructed `remainingUnits` map comes from a status row
whose `projectId` matches the project. -/
theorem buildProject_key_status (cfg : Config) (p : Project) (statuses : List ProjectStatus)
    (k : String) (h : k ∈ (buildProject cfg p statuses).remainingUnits.map Prod.fst) :
    ∃ st ∈ statuses, st.projectId = p.id ∧ st.subproductName = k := by
  simp only [buildProject] at h
  rcases mem_foldl_setA_keys _ _ _ _ h with h' | h'
  · simp at h'
  · rcases h' with ⟨st, hmem, hname⟩
    rw [List.mem_filter] at hmem
    exact ⟨st, hmem.1, by simpa using hmem.2, hname⟩

/-! ### Candidate-collection lemmas -/

theorem collectCandidates_error (cfg : Config) (occ : List Int) (day sess g : Int) :
    ∀ (i : Nat) (l : List SchedulerProject) (e : SchedulerError),
      collectCandidates cfg occ day sess g i l = .error e →
      ∃ p ∈ l, p.isComplete = false ∧ p.deadline < day ∧
        e = .deadline p.name (p.deadline + cfg.deadlineBuffer) := by
  intro i l
  induction l generalizing i with
  | nil => intro e he; simp [collectCandidates] at he
  | cons p rest ih =>
    intro e he
    simp only [collectCandidates] at he
    by_cases hc : p.isComplete
    · rw [if_pos hc] at he
      rcases ih _ _ he with ⟨q, hq, h1, h2, h3⟩
      exact ⟨q, List.mem_cons_of_mem _ hq, h1, h2, h3⟩
    · rw [if_neg hc] at he
      by_cases hd : p.deadline < day
      · rw [if_pos hd] at he
        refine ⟨p, List.mem_cons_self _ _, by simpa using hc, hd, ?_⟩
        injection he with he'
        exact he'.symm
      · rw [if_neg hd] at he
        rcases hrec : collectCandidates cfg occ day sess g (i + 1) rest with e' | cs
        · rw [hrec] at he
          simp only at he
          injection he with he'
          rcases ih _ _ hrec with ⟨q, hq, h1, h2, h3⟩
          exact ⟨q, List.mem_cons_of_mem _ hq, h1, h2, he' ▸ h3⟩
        · rw [hrec] at he
          simp at he

theorem collectCandidates_ok_mem (cfg : Config) (occ : List Int) (day sess g : Int) :
    ∀ (i : Nat) (l : List SchedulerProject) (cs : List Candidate),
      collectCandidates cfg occ day sess g i l = .ok cs →
      ∀ c ∈ cs, ∃ j, j < l.length ∧ c.idx = i + j ∧ l[j]? = some c.proj ∧
        c.proj.isComplete = false ∧ day ≤ c.proj.deadline ∧
        c.subs = validSubs cfg occ sess g c.proj ∧ c.subs ≠ [] := by
  intro i l
  induction l generalizing i with
  | nil =>
    intro cs hcs c hc
    simp only [collectCandidates] at hcs
    injection hcs with h
    subst h
    simp at hc
  | cons p rest ih =>
    intro cs hcs c hc
    simp only [collectCandidates] at hcs
    by_cases hcmp : p.isComplete
    · rw [if_pos hcmp] at hcs
      rcases ih _ _ hcs c hc with ⟨j, hj, h1, h2, h3, h4, h5, h6⟩
      exact ⟨j + 1, by simpa using hj, by omega, by simpa using h2, h3, h4, h5, h6⟩
    · rw [if_neg hcmp] at hcs
      by_cases hd : p.deadline < day
      · rw [if_pos hd] at hcs
        simp at hcs
      · rw [if_neg hd] at hcs
        rcases hrec : collectCandidates cfg occ day sess g (i + 1) rest with e' | cs'
        · rw [hrec] at hcs; simp at hcs
        · rw [hrec] at hcs
          simp only at hcs
          injection hcs with h
          subst h
          by_cases hvs : (validSubs cfg occ sess g p).isEmpty
          · rw [if_pos hvs] at hc
            rcases ih _ _ hrec c hc with ⟨j, hj, h1, h2, h3, h4, h5, h6⟩
            exact ⟨j + 1, by simpa using hj, by omega, by simpa using h2, h3, h4, h5, h6⟩
          · rw [if_neg hvs] at hc
            rcases List.mem_cons.1 hc with hc' | hc'
            · subst hc'
              refine ⟨0, by simp, ?_, ?_, by simpa using hcmp, ?_, rfl, ?_⟩
              · show i = i + 0
                omega
              · show (p :: rest)[0]? = some p
                simp
              · show day ≤ p.deadline
                omega
              · intro hnil
                have hnil' : validSubs cfg occ sess g p = [] := hnil
                rw [hnil'] at hvs
                simp at hvs
            · rcases ih _ _ hrec c hc' with ⟨j, hj, h1, h2, h3, h4, h5, h6⟩
              exact ⟨j + 1, by simpa using hj, by omega, by simpa using h2, h3, h4, h5, h6⟩

theorem collectCandidates_ok_idx_lb (cfg : Config) (occ : List Int) (day sess g : Int) :
    ∀ (i : Nat) (l : List SchedulerProject) (cs : List Candidate),
      collectCandidates cfg occ day sess g i l = .ok cs →
      ∀ c ∈ cs, i ≤ c.idx := by
  intro i l cs hcs c hc
  rcases collectCandidates_ok_mem cfg occ day sess g i l cs hcs c hc with ⟨j, _, h1, _⟩
  omega

theorem collectCandidates_ok_idx (cfg : Config) (occ : List Int) (day sess g : Int) :
    ∀ (i : Nat) (l : List SchedulerProject) (cs : List Candidate),
      collectCandidates cfg occ day sess g i l = .ok cs →
      cs.Pairwise (fun c1 c2 => c1.idx < c2.idx) := by
  intro i l
  induction l generalizing i with
  | nil =>
    intro cs hcs
    simp only [collectCandidates] at hcs
    injection hcs with h
    subst h
    exact List.Pairwise.nil
  | cons p rest ih =>
    intro cs hcs
    simp only [collectCandidates] at hcs
    by_cases hcmp : p.isComplete
    · rw [if_pos hcmp] at hcs
      exact ih _ _ hcs
    · rw [if_neg hcmp] at hcs
      by_cases hd : p.deadline < day
      · rw [if_pos hd] at hcs; simp at hcs
      · rw [if_neg hd] at hcs
        rcases hrec : collectCandidates cfg occ day sess g (i + 1) rest with e' | cs'
        · rw [hrec] at hcs; simp at hcs
        · rw [hrec] at hcs
          simp only at hcs
          injection hcs with h
          subst h
          by_cases hvs : (validSubs cfg occ sess g p).isEmpty
          · rw [if_pos hvs]
            exact ih _ _ hrec
          · rw [if_neg hvs]
            refine List.Pairwise.cons ?_ (ih _ _ hrec)
            intro c hc
            have := collectCandidates_ok_idx_lb cfg occ day sess g _ _ _ hrec c hc
            show i < c.idx
            omega

/-! ### Selection lemmas -/

theorem foldl_choice_mem {α : Type} (f : α → α → α) (hf : ∀ a b, f a b = a ∨ f a b = b) :
    ∀ (l : List α) (a : α), l.foldl f a ∈ a :: l := by
  intro l
  induction l with
  | nil => intro a; simp
  | cons b l ih =>
    intro a
    rcases hf a b with hab | hab <;> simp only [List.foldl_cons, hab]
    · have h := ih a
      rcases List.mem_cons.1 h with h' | h'
      · rw [h']; simp
      · exact List.mem_cons_of_mem _ (List.mem_cons_of_mem _ h')
    · have h := ih b
      rcases List.mem_cons.1 h with h' | h'
      · rw [h']; simp
      · exact List.mem_cons_of_mem _ (List.mem_cons_of_mem _ h')

theorem pickBest_mem (day : Int) (l : List Candidate) (c : Candidate)
    (h : pickBest day l = some c) : c ∈ l := by
  cases l with
  | nil => simp [pickBest] at h
  | cons a l =>
    simp only [pickBest] at h
    injection h with h
    subst h
    exact foldl_choice_mem _ (fun a b => by by_cases hab : priority day a.proj < priority day b.proj <;> simp [hab]) l a

theorem pickSub_mem (p : SchedulerProject) (l : List String) (s : String)
    (h : pickSub p l = some s) : s ∈ l := by
  cases l with
  | nil => simp [pickSub] at h
  | cons a l =>
    simp only [pickSub] at h
    injection h with h
    subst h
    exact foldl_choice_mem _ (fun a b => by by_cases hab : getD p.durations b ≤ getD p.durations a <;> simp [hab]) l a

theorem pickBest_none (day : Int) (l : List Candidate) :
    pickBest day l = none ↔ l = [] := by
  cases l <;> simp [pickBest]

/-- The fold inside `pickBest` returns the first element attaining the maximal
priority: every element's priority is at most the result's, and every element
strictly before the result's position has strictly smaller priority. -/
theorem pickBest_argmax_first (day : Int) (l : List Candidate) (res : Candidate)
    (h : pickBest day l = some res) :
    ∃ i : Nat, l[i]? = some res ∧
      (∀ (j : Nat) (x : Candidate), l[j]? = some x →
        priority day x.proj ≤ priority day res.proj) ∧
      (∀ (j : Nat) (x : Candidate), j < i → l[j]? = some x →
        priority day x.proj < priority day res.proj) := by
  cases l with
  | nil => simp [pickBest] at h
  | cons c cs =>
    simp only [pickBest] at h
    injection h with h
    subst h
    induction cs generalizing c with
    | nil =>
      refine ⟨0, by simp, ?_, ?_⟩
      · intro j x hx
        cases j with
        | zero => simp at hx; subst hx; exact le_refl _
        | succ n => simp at hx
      · intro j x hj hx
        omega
    | cons b cs ih =>
      simp only [List.foldl_cons]
      by_cases hlt : priority day c.proj < priority day b.proj
      · rw [if_pos hlt]
        rcases ih b with ⟨i', h1, h2, h3⟩
        refine ⟨i' + 1, by simpa using h1, ?_, ?_⟩
        · intro j x hx
          cases j with
          | zero =>
            simp at hx
            subst hx
            have hb := h2 0 b (by simp)
            exact le_of_lt (lt_of_lt_of_le hlt hb)
          | succ n =>
            simp only [List.getElem?_cons_succ] at hx
            exact h2 n x hx
        · intro j x hj hx
          cases j with
          | zero =>
            simp at hx
            subst hx
            exact lt_of_lt_of_le hlt (h2 0 b (by simp))
          | succ n =>
            simp only [List.getElem?_cons_succ] at hx
            exact h3 n x (by omega) hx
      · rw [if_neg hlt]
        rcases ih c with ⟨i', h1, h2, h3⟩
        have hble : priority day b.proj ≤ priority day c.proj := le_of_not_lt hlt
        cases i' with
        | zero =>
          rw [List.getElem?_cons_zero] at h1
          injection h1 with h1
          have hcr := congrArg (fun t => priority day t.proj) h1
          simp only at hcr
          refine ⟨0, ?_, ?_, ?_⟩
          · rw [List.getElem?_cons_zero]
            exact congrArg some h1
          · intro j x hx
            cases j with
            | zero =>
              rw [List.getElem?_cons_zero] at hx
              injection hx with hx
              subst hx
              exact le_of_eq hcr
            | succ n =>
              simp only [List.getElem?_cons_succ] at hx
              cases n with
              | zero =>
                rw [List.getElem?_cons_zero] at hx
                injection hx with hx
                subst hx
                exact le_trans hble (le_of_eq hcr)
              | succ m =>
                simp only [List.getElem?_cons_succ] at hx
                exact h2 (m + 1) x (by simpa using hx)
          · intro j x hj hx
            omega
        | succ n =>
          refine ⟨n + 2, by simpa using h1, ?_, ?_⟩
          · intro j x hx
            cases j with
            | zero =>
              rw [List.getElem?_cons_zero] at hx
              injection hx with hx
              subst hx
              exact h2 0 c (by simp)
            | succ m =>
              simp only [List.getElem?_cons_succ] at hx
              cases m with
              | zero =>
                rw [List.getElem?_cons_zero] at hx
                injection hx with hx
                subst hx
                exact le_trans hble (h2 0 c (by simp))
              | succ m' =>
                simp only [List.getElem?_cons_succ] at hx
                exact h2 (m' + 1) x (by simpa using hx)
          · intro j x hj hx
            cases j with
            | zero =>
              rw [List.getElem?_cons_zero] at hx
              injection hx with hx
              subst hx
              exact h3 0 c (by omega) (by simp)
            | succ m =>
              simp only [List.getElem?_cons_succ] at hx
              cases m with
              | zero =>
                rw [List.getElem?_cons_zero] at hx
                injection hx with hx
                subst hx
                exact lt_of_le_of_lt hble (h3 0 c (by omega) (by simp))
              | succ m' =>
                simp only [List.getElem?_cons_succ] at hx
                exact h3 (m' + 1) x (by omega) (by simpa using hx)

/-- The invariant holds initially, for the freshly constructed projects and no
blocks. -/
theorem Inv_init (cfg : Config) (startDay : Int) (blocked : List Int)
    (projects : List Project) (statuses : List ProjectStatus) :
    Inv cfg startDay blocked (projects.map fun p => buildProject cfg p statuses)
      (projects.map fun p => buildProject cfg p statuses) [] := by
  constructor
  · rfl
  · intro i p0 p h0 h
    rw [h0] at h
    injection h with h
    subst h
    exact ⟨rfl, rfl, rfl, rfl, rfl, rfl, rfl⟩
  · intro i p h
    rw [List.getElem?_map] at h
    rcases hm : projects[i]? with _ | q
    · rw [hm] at h; simp at h
    · rw [hm] at h
      injection h with h
      subst h
      exact buildProject_keys_eq cfg q statuses
  · intro i p0 h0 _
    exact h0
  · intro b hb; simp at hb
  · intro b hb; simp at hb
  · intro b hb; simp at hb
  · intro b hb; simp at hb
  · intro b hb; simp at hb
  · intro b hb; simp at hb
  · exact List.Pairwise.nil
  · intro _; exact List.Pairwise.nil
  · intro _ b hb; simp at hb

/-! ### Small list helpers -/

theorem getElem?_set_ne {α : Type} (l : List α) (i j : Nat) (a : α) (h : i ≠ j) :
    (l.set i a)[j]? = l[j]? := by
  induction l generalizing i j with
  | nil => simp
  | cons x xs ih =>
    cases i with
    | zero =>
      cases j with
      | zero => omega
      | succ m => simp [List.set]
    | succ n =>
      cases j with
      | zero => simp [List.set]
      | succ m =>
        simp only [List.set, List.getElem?_cons_succ]
        exact ih n m (by omega)

theorem getElem?_set_self {α : Type} (l : List α) (i : Nat) (a : α) (h : i < l.length) :
    (l.set i a)[i]? = some a := by
  induction l generalizing i with
  | nil => simp at h
  | cons x xs ih =>
    cases i with
    | zero => simp [List.set]
    | succ n =>
      simp only [List.set, List.getElem?_cons_succ]
      exact ih n (by simpa using h)

theorem mem_coverage (sess : Int) (n : Nat) (x : Int) :
    (x ∈ (List.range n).map (fun i : Nat => sess + (i : Int))) ↔ sess ≤ x ∧ x < sess + n := by
  constructor
  · intro h
    rcases List.mem_map.1 h with ⟨k, hk, hx⟩
    rw [List.mem_range] at hk
    subst hx
    omega
  · intro ⟨h1, h2⟩
    refine List.mem_map.2 ⟨(x - sess).toNat, ?_, ?_⟩
    · rw [List.mem_range]; omega
    · omega

/-- Membership characterization for `validSubs`. -/
theorem validSubs_mem (cfg : Config) (occ : List Int) (sess g : Int) (p : SchedulerProject)
    (s : String) :
    s ∈ validSubs cfg occ sess g p ↔
      s ∈ p.remainingUnits.map Prod.fst ∧ 0 < getD p.remainingUnits s ∧
      getD p.moldReady s ≤ g ∧ sess + getD p.durations s - 1 ≤ cfg.sessionsPerDay ∧
      ∀ k : Nat, k < (getD p.durations s).toNat → ¬((sess + (k : Int)) ∈ occ) := by
  constructor
  · intro h
    rw [validSubs, List.mem_filter] at h
    obtain ⟨hmem, hcond⟩ := h
    simp only [Bool.and_eq_true, decide_eq_true_eq, List.all_eq_true, List.mem_range,
      Bool.not_eq_true'] at hcond
    obtain ⟨⟨⟨h2, h3⟩, h4⟩, h5⟩ := hcond
    refine ⟨hmem, h2, h3, h4, ?_⟩
    intro k hk hmem2
    have h6 := h5 k hk
    simp at h6
    exact h6 hmem2
  · intro ⟨h1, h2, h3, h4, h5⟩
    rw [validSubs, List.mem_filter]
    refine ⟨h1, ?_⟩
    simp only [Bool.and_eq_true, decide_eq_true_eq, List.all_eq_true, List.mem_range,
      Bool.not_eq_true']
    refine ⟨⟨⟨h2, h3⟩, h4⟩, ?_⟩
    intro k hk
    simp
    exact h5 k hk

theorem getElem?_exists_of_lt {α : Type} (l : List α) (i : Nat) (h : i < l.length) :
    ∃ a, l[i]? = some a := by
  rcases hx : l[i]? with _ | a
  · rw [List.getElem?_eq_none_iff] at hx
    omega
  · exact ⟨a, rfl⟩

/-! ### Session-step preservation -/

/-- One step of the session loop preserves the invariant: either it returns a
new state whose schedule is still a rendered block list (possibly with one new
block committed at the current session), or it aborts with a deadline error
that names a project that was already incomplete in the initial state. -/
theorem sessionStep_inv (cfg : Config) (sd : Int) (bl : List Int)
    (ps0 : List SchedulerProject) (day sess : Int) (st : SimState) (blocks : List Block)
    (hInv : Inv cfg sd bl ps0 st.ps blocks)
    (hsched : st.sched = blocks.flatMap renderBlock)
    (hday : ∀ b ∈ blocks, b.day < day ∨ (b.day = day ∧ b.sess < sess))
    (hocc : ∀ x : Int, x ∈ st.occ ↔ ((day = sd ∧ x ∈ bl ∧ 1 ≤ x ∧ x ≤ cfg.sessionsPerDay) ∨
        ∃ b ∈ blocks, b.day = day ∧ b.sess ≤ x ∧ x < b.sess + b.dur))
    (hsess1 : 1 ≤ sess) (hsess2 : sess ≤ cfg.sessionsPerDay)
    (hsd : sd ≤ day) (h150 : day ≤ 150) :
    (∃ st' blocks', sessionStep cfg day sess st = .ok st' ∧
      Inv cfg sd bl ps0 st'.ps blocks' ∧ st'.sched = blocks'.flatMap renderBlock ∧
      (∀ b ∈ blocks', b.day < day ∨ (b.day = day ∧ b.sess ≤ sess)) ∧
      (∀ x : Int, x ∈ st'.occ ↔ ((day = sd ∧ x ∈ bl ∧ 1 ≤ x ∧ x ≤ cfg.sessionsPerDay) ∨
        ∃ b ∈ blocks', b.day = day ∧ b.sess ≤ x ∧ x < b.sess + b.dur))) ∨
    (∃ e, sessionStep cfg day sess st = .error (st.sched, e) ∧
      ∃ (i : Nat) (p0 : SchedulerProject), ps0[i]? = some p0 ∧ p0.isComplete = false ∧
        p0.deadline < day ∧ e = .deadline p0.name (p0.deadline + cfg.deadlineBuffer)) := by
  have hdayW : ∀ b ∈ blocks, b.day < day ∨ (b.day = day ∧ b.sess ≤ sess) :=
    fun b hb => (hday b hb).imp id (fun h => ⟨h.1, le_of_lt h.2⟩)
  by_cases hc : st.occ.contains sess = true
  · left
    exact ⟨st, blocks, by simp only [sessionStep, if_pos hc], hInv, hsched, hdayW, hocc⟩
  · have hcfalse : st.occ.contains sess = false := by simpa using hc
    have hcfree : ¬ (sess ∈ st.occ) := by simpa using hc
    rcases hcands : collectCandidates cfg st.occ day sess
        ((day - 1) * cfg.sessionsPerDay + sess) 0 st.ps with e | cands
    · right
      refine ⟨e, by simp only [sessionStep, if_neg hc, hcands], ?_⟩
      rcases collectCandidates_error cfg st.occ day sess _ 0 st.ps e hcands with
        ⟨p, hpmem, hpc, hpd, he⟩
      obtain ⟨i, hi⟩ := List.mem_iff_getElem?.1 hpmem
      have hilen : i < ps0.length := by
        have h1 : i < st.ps.length := by
          by_contra hcon
          rw [List.getElem?_eq_none (by omega)] at hi
          exact Option.noConfusion hi
        rw [hInv.len] at h1
        exact h1
      obtain ⟨p0, hp0⟩ := getElem?_exists_of_lt ps0 i hilen
      obtain ⟨_, hfname, hfdead, _⟩ := hInv.frame i p0 p hp0 hi
      have hp0c : p0.isComplete = false := by
        rcases hb : p0.isComplete with _ | _
        · rfl
        · have hstable := hInv.completeStable i p0 hp0 hb
          rw [hstable] at hi
          injection hi with hi
          rw [← hi] at hpc
          rw [hb] at hpc
          exact Bool.noConfusion hpc
      exact ⟨i, p0, hp0, hp0c, hfdead ▸ hpd, by rw [he, hfname, hfdead]⟩
    · rcases hpb : pickBest day cands with _ | best
      · left
        refine ⟨st, blocks, ?_, hInv, hsched, hdayW, hocc⟩
        simp only [sessionStep, if_neg hc, hcands, hpb]
      · have hbmem := pickBest_mem day cands best hpb
        obtain ⟨j, hjlen, hidx, hjget, hjc, hjd, hsubs, hsne⟩ :=
          collectCandidates_ok_mem cfg st.occ day sess _ 0 st.ps cands hcands best hbmem
        have hidxj : best.idx = j := by omega
        have hpsome : ∃ bs, pickSub best.proj best.subs = some bs := by
          rcases hbs : best.subs with _ | ⟨a, l⟩
          · exact absurd hbs hsne
          · exact ⟨_, by rw [pickSub]⟩
        obtain ⟨bs, hps⟩ := hpsome
        have hbsmem : bs ∈ best.subs := pickSub_mem _ _ _ hps
        rw [hsubs, validSubs_mem] at hbsmem
        obtain ⟨hkey, hunits, hmold, hfit, hfree⟩ := hbsmem
        have hjlen0 : j < ps0.length := hInv.len ▸ hjlen
        obtain ⟨p0, hp0⟩ := getElem?_exists_of_lt ps0 j hjlen0
        obtain ⟨hfid, hfname, hfdead, hfdur, hfcolor, hfremk, hfmoldk⟩ :=
          hInv.frame j p0 best.proj hp0 hjget
        have hkeysEq := hInv.keysEq j best.proj hjget
        have hbs_mold : bs ∈ best.proj.moldReady.map Prod.fst := hkeysEq ▸ hkey
        have hp0notc : p0.isComplete = false := by
          rcases hb : p0.isComplete with _ | _
          · rfl
          · have hstable := hInv.completeStable j p0 hp0 hb
            rw [hstable] at hjget
            injection hjget with hj'
            rw [← hj'] at hjc
            rw [hb] at hjc
            exact Bool.noConfusion hjc
        have hstep : sessionStep cfg day sess st = .ok
            { ps := st.ps.set j
                { best.proj with
                  remainingUnits := setA best.proj.remainingUnits bs
                    (getD best.proj.remainingUnits bs - 1),
                  moldReady := setA best.proj.moldReady bs
                    ((day - 1) * cfg.sessionsPerDay + sess +
                      getD best.proj.durations bs + cfg.cooldown) },
              occ := st.occ ++ (List.range (getD best.proj.durations bs).toNat).map
                (fun i : Nat => sess + (i : Int)),
              sched := st.sched ++ mkEntries day sess best.proj bs
                (getD best.proj.durations bs) } := by
          rw [← hidxj]
          simp only [sessionStep, if_neg hc, hcands, hpb, hps]
        obtain ⟨p', hpUdef⟩ : ∃ p' : SchedulerProject,
            p' = { best.proj with
                   remainingUnits := setA best.proj.remainingUnits bs
                     (getD best.proj.remainingUnits bs - 1),
                   moldReady := setA best.proj.moldReady bs
                     ((day - 1) * cfg.sessionsPerDay + sess +
                       getD best.proj.durations bs + cfg.cooldown) } := ⟨_, rfl⟩
        have hpUid : p'.id = best.proj.id := by rw [hpUdef]
        have hpUname : p'.name = best.proj.name := by rw [hpUdef]
        have hpUdead : p'.deadline = best.proj.deadline := by rw [hpUdef]
        have hpUdur : p'.durations = best.proj.durations := by rw [hpUdef]
        have hpUcolor : p'.color = best.proj.color := by rw [hpUdef]
        have hpUrem : p'.remainingUnits =
            setA best.proj.remainingUnits bs (getD best.proj.remainingUnits bs - 1) := by
          rw [hpUdef]
        have hpUmold : p'.moldReady = setA best.proj.moldReady bs
            ((day - 1) * cfg.sessionsPerDay + sess +
              getD best.proj.durations bs + cfg.cooldown) := by
          rw [hpUdef]
        rw [← hpUdef] at hstep
        -- facts shared by both duration cases
        have hlen' : (st.ps.set j p').length = ps0.length := by
          rw [List.length_set, hInv.len]
        have hframe' : ∀ (i : Nat) (q0 q : SchedulerProject),
            ps0[i]? = some q0 → (st.ps.set j p')[i]? = some q →
            q.id = q0.id ∧ q.name = q0.name ∧ q.deadline = q0.deadline ∧
            q.durations = q0.durations ∧ q.color = q0.color ∧
            q.remainingUnits.map Prod.fst = q0.remainingUnits.map Prod.fst ∧
            q.moldReady.map Prod.fst = q0.moldReady.map Prod.fst := by
          intro i q0 q h0 hq
          by_cases hij : j = i
          · subst hij
            rw [getElem?_set_self _ _ _ hjlen] at hq
            injection hq with hq
            subst hq
            rw [hp0] at h0
            injection h0 with h0
            subst h0
            refine ⟨by rw [hpUid, hfid], by rw [hpUname, hfname], by rw [hpUdead, hfdead],
              by rw [hpUdur, hfdur], by rw [hpUcolor, hfcolor], ?_, ?_⟩
            · rw [hpUrem, setA_keys_of_mem _ _ _ hkey]
              exact hfremk
            · rw [hpUmold, setA_keys_of_mem _ _ _ hbs_mold]
              exact hfmoldk
          · rw [getElem?_set_ne _ _ _ _ hij] at hq
            exact hInv.frame i q0 q h0 hq
        have hkeysEq' : ∀ (i : Nat) (q : SchedulerProject),
            (st.ps.set j p')[i]? = some q →
            q.remainingUnits.map Prod.fst = q.moldReady.map Prod.fst := by
          intro i q hq
          by_cases hij : j = i
          · subst hij
            rw [getElem?_set_self _ _ _ hjlen] at hq
            injection hq with hq
            subst hq
            rw [hpUrem, hpUmold, setA_keys_of_mem _ _ _ hkey,
              setA_keys_of_mem _ _ _ hbs_mold]
            exact hkeysEq
          · rw [getElem?_set_ne _ _ _ _ hij] at hq
            exact hInv.keysEq i q hq
        have hstable' : ∀ (i : Nat) (q0 : SchedulerProject), ps0[i]? = some q0 →
            q0.isComplete = true → (st.ps.set j p')[i]? = some q0 := by
          intro i q0 h0 hq0c
          by_cases hij : j = i
          · subst hij
            rw [hp0] at h0
            injection h0 with h0
            subst h0
            rw [hq0c] at hp0notc
            exact Bool.noConfusion hp0notc
          · rw [getElem?_set_ne _ _ _ _ hij]
            exact hInv.completeStable i q0 h0 hq0c
        by_cases hdpos : 1 ≤ getD best.proj.durations bs
        · -- a real commit: one new block
          obtain ⟨B, hBdef⟩ : ∃ B : Block,
              B = { day := day, sess := sess, idx := j, pid := best.proj.id,
                    pname := best.proj.name, sub := bs,
                    dur := getD best.proj.durations bs,
                    color := best.proj.color } := ⟨_, rfl⟩
          have hrender : mkEntries day sess best.proj bs (getD best.proj.durations bs) =
              renderBlock B := by
            rw [hBdef]
            rfl
          have hBstart : blockStart cfg B = (day - 1) * cfg.sessionsPerDay + sess := by
            rw [hBdef]
            rfl
          have hBday : B.day = day := by rw [hBdef]
          have hBsess : B.sess = sess := by rw [hBdef]
          have hBidx : B.idx = j := by rw [hBdef]
          have hBpid : B.pid = best.proj.id := by rw [hBdef]
          have hBpname : B.pname = best.proj.name := by rw [hBdef]
          have hBsub : B.sub = bs := by rw [hBdef]
          have hBdur : B.dur = getD best.proj.durations bs := by rw [hBdef]
          have hBcolor : B.color = best.proj.color := by rw [hBdef]
          have hordB : ∀ b ∈ blocks, blockOrder b B := by
            intro b hb
            show b.day < B.day ∨ (b.day = B.day ∧ b.sess + b.dur ≤ B.sess)
            rw [hBday, hBsess]
            rcases hday b hb with h | ⟨h1, h2⟩
            · exact Or.inl h
            · refine Or.inr ⟨h1, ?_⟩
              by_contra hcon
              push_neg at hcon
              have hmem : sess ∈ st.occ := by
                rw [hocc]
                exact Or.inr ⟨b, hb, h1, by omega, by omega⟩
              exact hcfree hmem
          left
          refine ⟨_, blocks ++ [B], hstep, ?_, ?_, ?_, ?_⟩
          · constructor
            · exact hlen'
            · exact hframe'
            · exact hkeysEq'
            · exact hstable'
            · intro b hb
              rcases List.mem_append.1 hb with hb | hb
              · exact hInv.blockLink b hb
              · rw [List.mem_singleton] at hb
                subst hb
                refine ⟨p0, ?_, ?_, ?_, ?_, ?_, ?_⟩
                · rw [hBidx]; exact hp0
                · rw [hBpid]; exact hfid
                · rw [hBpname]; exact hfname
                · rw [hBcolor]; exact hfcolor
                · rw [hBdur, hBsub, hfdur]
                · rw [hBsub]
                  exact hfremk ▸ hkey
            · intro b hb
              rcases List.mem_append.1 hb with hb | hb
              · exact hInv.durPos b hb
              · rw [List.mem_singleton] at hb
                subst hb
                rw [hBdur]
                exact hdpos
            · intro b hb
              rcases List.mem_append.1 hb with hb | hb
              · exact hInv.sessBounds b hb
              · rw [List.mem_singleton] at hb
                subst hb
                rw [hBsess, hBdur]
                exact ⟨hsess1, hfit⟩
            · intro b hb
              rcases List.mem_append.1 hb with hb | hb
              · exact hInv.dayLB b hb
              · rw [List.mem_singleton] at hb
                subst hb
                rw [hBday]
                exact hsd
            · intro b hb
              rcases List.mem_append.1 hb with hb | hb
              · exact hInv.dayUB b hb
              · rw [List.mem_singleton] at hb
                subst hb
                rw [hBday]
                exact h150
            · intro b hb
              rcases List.mem_append.1 hb with hb | hb
              · exact hInv.blockedFree b hb
              · rw [List.mem_singleton] at hb
                subst hb
                intro hdsd s hs1 hs2 hsbl
                rw [hBday] at hdsd
                rw [hBsess] at hs1
                rw [hBsess, hBdur] at hs2
                have hsocc : s ∈ st.occ := by
                  rw [hocc]
                  refine Or.inl ⟨hdsd, hsbl, by omega, ?_⟩
                  have := hfit
                  omega
                have hklt : (s - sess).toNat < (getD best.proj.durations bs).toNat := by
                  omega
                have hfr := hfree (s - sess).toNat hklt
                rw [show sess + (((s - sess).toNat : Nat) : Int) = s by omega] at hfr
                exact hfr hsocc
            · rw [List.pairwise_append]
              exact ⟨hInv.ordered, List.pairwise_singleton _ _,
                fun b hb b' hb' => (List.mem_singleton.1 hb') ▸ hordB b hb⟩
            · intro hcd
              rw [List.pairwise_append]
              refine ⟨hInv.cool hcd, List.pairwise_singleton _ _, ?_⟩
              intro b hb b' hb' hsk
              rw [List.mem_singleton] at hb'
              subst hb'
              obtain ⟨hsk1, hsk2⟩ := hsk
              have hbidx : b.idx = j := by rw [hsk1, hBidx]
              have hbsub : b.sub = bs := by rw [hsk2, hBsub]
              have hmb := hInv.moldLB hcd b hb best.proj (by rw [hbidx]; exact hjget)
              rw [hbsub] at hmb
              rw [hBstart]
              omega
            · intro hcd b' hb' q hq
              rcases List.mem_append.1 hb' with hb' | hb'
              · by_cases hbj : b'.idx = j
                · rw [hbj, getElem?_set_self _ _ _ hjlen] at hq
                  injection hq with hq
                  subst hq
                  by_cases hbsub : b'.sub = bs
                  · have hmb := hInv.moldLB hcd b' hb' best.proj (by rw [hbj]; exact hjget)
                    rw [hbsub] at hmb
                    rw [hbsub, hpUmold, getD_setA_self]
                    omega
                  · rw [hpUmold, getD_setA_ne _ _ _ _ hbsub]
                    exact hInv.moldLB hcd b' hb' best.proj (by rw [hbj]; exact hjget)
                · rw [getElem?_set_ne _ _ _ _ (fun hh => hbj hh.symm)] at hq
                  exact hInv.moldLB hcd b' hb' q hq
              · rw [List.mem_singleton] at hb'
                subst hb'
                rw [hBidx] at hq
                rw [getElem?_set_self _ _ _ hjlen] at hq
                injection hq with hq
                subst hq
                rw [hBstart, hBdur, hBsub, hpUmold, getD_setA_self]
          · show st.sched ++ mkEntries day sess best.proj bs (getD best.proj.durations bs) =
              (blocks ++ [B]).flatMap renderBlock
            rw [hsched, hrender, List.flatMap_append]
            simp
          · intro b hb
            rcases List.mem_append.1 hb with hb | hb
            · exact hdayW b hb
            · rw [List.mem_singleton] at hb
              subst hb
              rw [hBday, hBsess]
              exact Or.inr ⟨rfl, le_refl _⟩
          · intro x
            show x ∈ st.occ ++ (List.range (getD best.proj.durations bs).toNat).map
                (fun i : Nat => sess + (i : Int)) ↔ _
            rw [List.mem_append, hocc x, mem_coverage]
            constructor
            · intro h
              rcases h with (h | ⟨b, hb, h1, h2, h3⟩) | h
              · exact Or.inl h
              · exact Or.inr ⟨b, List.mem_append_left _ hb, h1, h2, h3⟩
              · refine Or.inr ⟨B, List.mem_append_right _ (List.mem_singleton.2 rfl),
                  hBday, ?_, ?_⟩
                · rw [hBsess]
                  exact h.1
                · rw [hBsess, hBdur]
                  have := h.2
                  omega
            · intro h
              rcases h with h | ⟨b, hb, h1, h2, h3⟩
              · exact Or.inl (Or.inl h)
              · rcases List.mem_append.1 hb with hb | hb
                · exact Or.inl (Or.inr ⟨b, hb, h1, h2, h3⟩)
                · rw [List.mem_singleton] at hb
                  subst hb
                  rw [hBsess] at h2
                  rw [hBsess, hBdur] at h3
                  refine Or.inr ⟨by omega, by omega⟩
        · -- a degenerate commit (non-positive duration): no entries, no block
          have hz : (getD best.proj.durations bs).toNat = 0 := by omega
          have hentnil : mkEntries day sess best.proj bs (getD best.proj.durations bs) = [] := by
            rw [mkEntries, hz]
            rfl
          have hcovnil : (List.range (getD best.proj.durations bs).toNat).map
              (fun i : Nat => sess + (i : Int)) = [] := by
            rw [hz]
            rfl
          left
          refine ⟨_, blocks, hstep, ?_, ?_, ?_, ?_⟩
          · constructor
            · exact hlen'
            · exact hframe'
            · exact hkeysEq'
            · exact hstable'
            · exact hInv.blockLink
            · exact hInv.durPos
            · exact hInv.sessBounds
            · exact hInv.dayLB
            · exact hInv.dayUB
            · exact hInv.blockedFree
            · exact hInv.ordered
            · exact hInv.cool
            · intro hcd b hb q hq
              by_cases hbj : b.idx = j
              · rw [hbj, getElem?_set_self _ _ _ hjlen] at hq
                injection hq with hq
                subst hq
                by_cases hbsub : b.sub = bs
                · exfalso
                  obtain ⟨q0, hq0, _, _, _, hqdur, _⟩ := hInv.blockLink b hb
                  rw [hbj, hp0] at hq0
                  injection hq0 with hq0
                  subst hq0
                  have := hInv.durPos b hb
                  rw [hqdur, hbsub, ← hfdur] at this
                  omega
                · rw [hpUmold, getD_setA_ne _ _ _ _ hbsub]
                  exact hInv.moldLB hcd b hb best.proj (by rw [hbj]; exact hjget)
              · rw [getElem?_set_ne _ _ _ _ (fun hh => hbj hh.symm)] at hq
                exact hInv.moldLB hcd b hb q hq
          · show st.sched ++ mkEntries day sess best.proj bs (getD best.proj.durations bs) =
              blocks.flatMap renderBlock
            rw [hentnil, List.append_nil, hsched]
          · exact hdayW
          · intro x
            show x ∈ st.occ ++ (List.range (getD best.proj.durations bs).toNat).map
                (fun i : Nat => sess + (i : Int)) ↔ _
            rw [hcovnil, List.append_nil]
            exact hocc x

/-! ### Day-loop preservation -/

theorem runDay_inv (cfg : Config) (sd : Int) (bl : List Int) (ps0 : List SchedulerProject)
    (day : Int) :
    ∀ (l : List Int) (st : SimState) (blocks : List Block),
      Inv cfg sd bl ps0 st.ps blocks →
      st.sched = blocks.flatMap renderBlock →
      (∀ b ∈ blocks, b.day < day ∨ (b.day = day ∧ ∀ s ∈ l, b.sess < s)) →
      (∀ x : Int, x ∈ st.occ ↔ ((day = sd ∧ x ∈ bl ∧ 1 ≤ x ∧ x ≤ cfg.sessionsPerDay) ∨
          ∃ b ∈ blocks, b.day = day ∧ b.sess ≤ x ∧ x < b.sess + b.dur)) →
      l.Pairwise (· < ·) →
      (∀ s ∈ l, 1 ≤ s ∧ s ≤ cfg.sessionsPerDay) →
      sd ≤ day → day ≤ 150 →
      (∃ st' blocks', runDay cfg day l st = .ok st' ∧
        Inv cfg sd bl ps0 st'.ps blocks' ∧ st'.sched = blocks'.flatMap renderBlock ∧
        (∀ b ∈ blocks', b.day ≤ day)) ∨
      (∃ (stE : SimState) (blocksE : List Block) (e : SchedulerError),
        runDay cfg day l st = .error (stE.sched, e) ∧
        Inv cfg sd bl ps0 stE.ps blocksE ∧ stE.sched = blocksE.flatMap renderBlock ∧
        (∀ b ∈ blocksE, b.day ≤ day) ∧
        ∃ (i : Nat) (q0 : SchedulerProject), ps0[i]? = some q0 ∧ q0.isComplete = false ∧
          q0.deadline < day ∧ e = .deadline q0.name (q0.deadline + cfg.deadlineBuffer)) := by
  intro l
  induction l with
  | nil =>
    intro st blocks hInv hsched hday hocc _ _ _ _
    left
    refine ⟨st, blocks, rfl, hInv, hsched, ?_⟩
    intro b hb
    rcases hday b hb with h | ⟨h, _⟩
    · omega
    · omega
  | cons s rest ih =>
    intro st blocks hInv hsched hday hocc hpw hbounds hsd h150
    have hdays : ∀ b ∈ blocks, b.day < day ∨ (b.day = day ∧ b.sess < s) := by
      intro b hb
      rcases hday b hb with h | ⟨h1, h2⟩
      · exact Or.inl h
      · exact Or.inr ⟨h1, h2 s (List.mem_cons_self _ _)⟩
    obtain ⟨hs1, hs2⟩ := hbounds s (List.mem_cons_self _ _)
    rcases sessionStep_inv cfg sd bl ps0 day s st blocks hInv hsched hdays hocc
        hs1 hs2 hsd h150 with
      ⟨st', blocks', hstep, hInv', hsched', hday', hocc'⟩ | ⟨e, hstep, hchar⟩
    · have hday'' : ∀ b ∈ blocks', b.day < day ∨ (b.day = day ∧ ∀ s' ∈ rest, b.sess < s') := by
        intro b hb
        rcases hday' b hb with h | ⟨h1, h2⟩
        · exact Or.inl h
        · refine Or.inr ⟨h1, ?_⟩
          intro s' hs'
          have := (List.pairwise_cons.1 hpw).1 s' hs'
          omega
      have hrest := ih st' blocks' hInv' hsched' hday'' hocc'
        (List.pairwise_cons.1 hpw).2 (fun s' hs' => hbounds s' (List.mem_cons_of_mem _ hs'))
        hsd h150
      rcases hrest with ⟨st'', blocks'', hrun, h1, h2, h3⟩ | ⟨stE, blocksE, e, hrun, h1, h2, h3, h4⟩
      · left
        refine ⟨st'', blocks'', ?_, h1, h2, h3⟩
        rw [runDay, hstep]
        exact hrun
      · right
        refine ⟨stE, blocksE, e, ?_, h1, h2, h3, h4⟩
        rw [runDay, hstep]
        exact hrun
    · right
      refine ⟨st, blocks, e, ?_, hInv, hsched, ?_, ?_⟩
      · rw [runDay, hstep]
      · intro b hb
        rcases hday b hb with h | ⟨h, _⟩
        · omega
        · omega
      · obtain ⟨i, q0, hq0, hq0c, hq0d, he⟩ := hchar
        exact ⟨i, q0, hq0, hq0c, hq0d, he⟩

/-! ### Properties of the session-number list -/

theorem sessionNumbers_pairwise (cfg : Config) : (sessionNumbers cfg).Pairwise (· < ·) := by
  rw [sessionNumbers]
  refine List.Pairwise.map _ ?_ (List.pairwise_lt_range _)
  intro a b hab
  omega

theorem sessionNumbers_bounds (cfg : Config) :
    ∀ s ∈ sessionNumbers cfg, 1 ≤ s ∧ s ≤ cfg.sessionsPerDay := by
  intro s hs
  rw [sessionNumbers] at hs
  rcases List.mem_map.1 hs with ⟨k, hk, hsk⟩
  rw [List.mem_range] at hk
  subst hsk
  omega

/-! ### Day-recursion master lemma -/

/-- When not every working project is complete, some index holds a project
that was already incomplete in the initial working list. -/
theorem exists_incomplete_src (cfg : Config) (sd : Int) (bl : List Int)
    (ps0 ps : List SchedulerProject) (blocks : List Block)
    (hInv : Inv cfg sd bl ps0 ps blocks)
    (hall : ¬ ps.all SchedulerProject.isComplete = true) :
    ∃ (i : Nat) (q0 : SchedulerProject), ps0[i]? = some q0 ∧ q0.isComplete = false := by
  have hex : ∃ p ∈ ps, ¬ p.isComplete = true := by
    by_contra hcon
    push_neg at hcon
    exact hall (List.all_eq_true.2 fun p hp => hcon p hp)
  obtain ⟨p, hp, hpc⟩ := hex
  obtain ⟨i, hi⟩ := List.mem_iff_getElem?.1 hp
  have hilen : i < ps0.length := by
    have h1 : i < ps.length := by
      by_contra hcon
      rw [List.getElem?_eq_none (by omega)] at hi
      exact Option.noConfusion hi
    rw [hInv.len] at h1
    exact h1
  obtain ⟨q0, hq0⟩ := getElem?_exists_of_lt ps0 i hilen
  refine ⟨i, q0, hq0, ?_⟩
  cases hb : q0.isComplete with
  | false => rfl
  | true =>
    exfalso
    have hstable := hInv.completeStable i q0 hq0 hb
    rw [hstable] at hi
    injection hi with hi
    exact hpc (by rw [← hi, hb])

theorem runDaysAux_inv (cfg : Config) (sd : Int) (bl : List Int)
    (ps0 : List SchedulerProject) :
    ∀ (fuel : Nat) (day : Int) (ps : List SchedulerProject) (sched : List ScheduleEntry)
      (blocks : List Block),
      Inv cfg sd bl ps0 ps blocks →
      sched = blocks.flatMap renderBlock →
      (∀ b ∈ blocks, b.day < day) →
      sd ≤ day →
      ∃ blocksF psF,
        Inv cfg sd bl ps0 psF blocksF ∧
        (runDaysAux cfg sd bl fuel day ps sched).schedule = blocksF.flatMap renderBlock ∧
        (∀ (nm : String) (d : Int),
          (runDaysAux cfg sd bl fuel day ps sched).error = some (.deadline nm d) →
          ∃ (i : Nat) (q0 : SchedulerProject), ps0[i]? = some q0 ∧ q0.isComplete = false ∧
            nm = q0.name ∧ d = q0.deadline + cfg.deadlineBuffer ∧
            ∃ dy : Int, sd ≤ dy ∧ dy ≤ 150 ∧ q0.deadline < dy) ∧
        ((runDaysAux cfg sd bl fuel day ps sched).error = some .limit →
          ∃ (i : Nat) (q0 : SchedulerProject), ps0[i]? = some q0 ∧ q0.isComplete = false) := by
  intro fuel
  induction fuel with
  | zero =>
    intro day ps sched blocks hInv hsched hday hsd
    refine ⟨blocks, ps, hInv, ?_, ?_, ?_⟩
    · rw [runDaysAux]
      by_cases hall : ps.all SchedulerProject.isComplete = true
      · rw [if_pos hall]
        exact hsched
      · rw [if_neg hall]
        by_cases h150 : 150 < day
        · rw [if_pos h150]
          exact hsched
        · rw [if_neg h150]
          exact hsched
    · intro nm d hd
      exfalso
      rw [runDaysAux] at hd
      by_cases hall : ps.all SchedulerProject.isComplete = true
      · rw [if_pos hall] at hd
        simp at hd
      · rw [if_neg hall] at hd
        by_cases h150 : 150 < day
        · rw [if_pos h150] at hd
          simp at hd
        · rw [if_neg h150] at hd
          simp at hd
    · intro hd
      rw [runDaysAux] at hd
      by_cases hall : ps.all SchedulerProject.isComplete = true
      · rw [if_pos hall] at hd
        simp at hd
      · exact exists_incomplete_src cfg sd bl ps0 ps blocks hInv hall
  | succ fuel ih =>
    intro day ps sched blocks hInv hsched hday hsd
    by_cases hall : ps.all SchedulerProject.isComplete = true
    · -- all projects complete: immediate return with no error
      refine ⟨blocks, ps, hInv, ?_, ?_, ?_⟩
      · rw [runDaysAux, if_pos hall]
        exact hsched
      · intro nm d hd
        rw [runDaysAux, if_pos hall] at hd
        simp at hd
      · intro hd
        rw [runDaysAux, if_pos hall] at hd
        simp at hd
    · by_cases h150 : 150 < day
      · refine ⟨blocks, ps, hInv, ?_, ?_, ?_⟩
        · rw [runDaysAux, if_neg hall, if_pos h150]
          exact hsched
        · intro nm d hd
          rw [runDaysAux, if_neg hall, if_pos h150] at hd
          simp at hd
        · intro _
          exact exists_incomplete_src cfg sd bl ps0 ps blocks hInv hall
      · -- run one day
        have hocc0 : ∀ x : Int,
            x ∈ (if day = sd then
              bl.filter (fun s => decide (1 ≤ s) && decide (s ≤ cfg.sessionsPerDay))
              else []) ↔
            ((day = sd ∧ x ∈ bl ∧ 1 ≤ x ∧ x ≤ cfg.sessionsPerDay) ∨
              ∃ b ∈ blocks, b.day = day ∧ b.sess ≤ x ∧ x < b.sess + b.dur) := by
          intro x
          have hnob : ¬ ∃ b ∈ blocks, b.day = day ∧ b.sess ≤ x ∧ x < b.sess + b.dur := by
            rintro ⟨b, hb, hbd, _⟩
            have := hday b hb
            omega
          by_cases hdsd : day = sd
          · rw [if_pos hdsd]
            rw [List.mem_filter]
            simp only [Bool.and_eq_true, decide_eq_true_eq]
            constructor
            · intro ⟨h1, h2, h3⟩
              exact Or.inl ⟨hdsd, h1, h2, h3⟩
            · intro h
              rcases h with ⟨_, h1, h2, h3⟩ | h
              · exact ⟨h1, h2, h3⟩
              · exact absurd h hnob
          · rw [if_neg hdsd]
            simp only [List.not_mem_nil, false_iff]
            intro h
            rcases h with ⟨h1, _⟩ | h
            · exact hdsd h1
            · exact hnob h
        have hday0 : ∀ b ∈ blocks, b.day < day ∨ (b.day = day ∧
            ∀ s ∈ sessionNumbers cfg, b.sess < s) :=
          fun b hb => Or.inl (hday b hb)
        rcases runDay_inv cfg sd bl ps0 day (sessionNumbers cfg)
            ⟨ps, (if day = sd then
              bl.filter (fun s => decide (1 ≤ s) && decide (s ≤ cfg.sessionsPerDay))
              else []), sched⟩ blocks hInv hsched hday0 hocc0
            (sessionNumbers_pairwise cfg) (sessionNumbers_bounds cfg) hsd (by omega) with
          ⟨st', blocks', hrun, hInv', hsched', hday'⟩ |
          ⟨stE, blocksE, e, hrun, hInvE, hschedE, hdayE, i, q0, hq0, hq0c, hq0d, he⟩
        · have hnext := ih (day + 1) st'.ps st'.sched blocks' hInv' hsched'
            (fun b hb => by have := hday' b hb; omega) (by omega)
          obtain ⟨blocksF, psF, hIF, hSF, hDF, hLF⟩ := hnext
          refine ⟨blocksF, psF, hIF, ?_, ?_, ?_⟩
          · rw [runDaysAux, if_neg hall, if_neg h150]
            simp only [hrun]
            exact hSF
          · intro nm d hd
            rw [runDaysAux, if_neg hall, if_neg h150] at hd
            simp only [hrun] at hd
            exact hDF nm d hd
          · intro hd
            rw [runDaysAux, if_neg hall, if_neg h150] at hd
            simp only [hrun] at hd
            exact hLF hd
        · refine ⟨blocksE, stE.ps, hInvE, ?_, ?_, ?_⟩
          · rw [runDaysAux, if_neg hall, if_neg h150]
            simp only [hrun]
            exact hschedE
          · intro nm d hd
            rw [runDaysAux, if_neg hall, if_neg h150] at hd
            simp only [hrun] at hd
            injection hd with hd
            rw [he] at hd
            injection hd with hnm hdd
            exact ⟨i, q0, hq0, hq0c, hnm.symm, hdd.symm, day, hsd, by omega, hq0d⟩
          · intro hd
            rw [runDaysAux, if_neg hall, if_neg h150] at hd
            simp only [hrun] at hd
            injection hd with hd
            rw [he] at hd
            exact SchedulerError.noConfusion hd

/-- The final decomposition of any `runScheduler` result: the returned
schedule is a rendered block list satisfying the invariant, and errors are
characterized. -/
theorem runScheduler_decomp (cfg : Config) (projects : List Project)
    (statuses : List ProjectStatus) (sd : Int) (bl : List Int) :
    ∃ blocksF psF,
      Inv cfg sd bl (projects.map fun p => buildProject cfg p statuses) psF blocksF ∧
      (runScheduler cfg projects statuses sd bl).schedule = blocksF.flatMap renderBlock ∧
      (∀ (nm : String) (d : Int),
        (runScheduler cfg projects statuses sd bl).error = some (.deadline nm d) →
        ∃ (i : Nat) (q0 : SchedulerProject),
          (projects.map fun p => buildProject cfg p statuses)[i]? = some q0 ∧
          q0.isComplete = false ∧ nm = q0.name ∧ d = q0.deadline + cfg.deadlineBuffer ∧
          ∃ dy : Int, sd ≤ dy ∧ dy ≤ 150 ∧ q0.deadline < dy) ∧
      ((runScheduler cfg projects statuses sd bl).error = some .limit →
        ∃ (i : Nat) (q0 : SchedulerProject),
          (projects.map fun p => buildProject cfg p statuses)[i]? = some q0 ∧
          q0.isComplete = false) := by
  have h := runDaysAux_inv cfg sd bl (projects.map fun p => buildProject cfg p statuses)
    (151 - sd).toNat sd (projects.map fun p => buildProject cfg p statuses) [] []
    (Inv_init cfg sd bl projects statuses) rfl (by intro b hb; simp at hb) (le_refl _)
  exact h

/-! ### Rendered-block membership -/

theorem mem_renderBlock (b : Block) (e : ScheduleEntry) :
    e ∈ renderBlock b ↔ ∃ i : Nat, i < b.dur.toNat ∧
      e = { day := b.day, session := b.sess + (i : Int), projectId := b.pid,
            projectName := b.pname, subproductName := b.sub, isCompleted := false,
            color := b.color } := by
  rw [renderBlock]
  constructor
  · intro h
    rcases List.mem_map.1 h with ⟨i, hi, he⟩
    exact ⟨i, List.mem_range.1 hi, he.symm⟩
  · intro ⟨i, hi, he⟩
    exact List.mem_map.2 ⟨i, List.mem_range.2 hi, he.symm⟩

theorem renderBlock_fields (b : Block) (e : ScheduleEntry) (he : e ∈ renderBlock b) :
    e.day = b.day ∧ b.sess ≤ e.session ∧ e.session < b.sess + b.dur ∧
    e.projectId = b.pid ∧ e.subproductName = b.sub ∧ e.projectName = b.pname ∧
    e.color = b.color ∧ e.isCompleted = false := by
  rcases (mem_renderBlock b e).1 he with ⟨i, hi, he'⟩
  subst he'
  refine ⟨rfl, ?_, ?_, rfl, rfl, rfl, rfl, rfl⟩
  · show b.sess ≤ b.sess + (i : Int)
    omega
  · show b.sess + (i : Int) < b.sess + b.dur
    omega

theorem renderBlock_mem_of_cover (b : Block) (s : Int) (h1 : b.sess ≤ s)
    (h2 : s < b.sess + b.dur) :
    ∃ e ∈ renderBlock b, e.day = b.day ∧ e.session = s ∧ e.projectId = b.pid ∧
      e.subproductName = b.sub := by
  refine ⟨_, (mem_renderBlock b _).2 ⟨(s - b.sess).toNat, by omega, rfl⟩, rfl, ?_, rfl, rfl⟩
  show b.sess + ((s - b.sess).toNat : Int) = s
  omega

/-- Distinctness of `(day, session)` pairs across an ordered block list. -/
theorem blocks_nodup_pairs (blocks : List Block) (hord : blocks.Pairwise blockOrder) :
    ((blocks.flatMap renderBlock).map fun e => (e.day, e.session)).Nodup := by
  induction blocks with
  | nil => simp
  | cons b rest ih =>
    rw [List.flatMap_cons, List.map_append, List.nodup_append]
    obtain ⟨hb, hrest⟩ := List.pairwise_cons.1 hord
    refine ⟨?_, ih hrest, ?_⟩
    · rw [renderBlock, List.map_map]
      refine List.Nodup.map_on ?_ (List.nodup_range _)
      intro i hi i' hi' hee
      simp only [Function.comp] at hee
      have h1 : b.sess + (i : Int) = b.sess + (i' : Int) := congrArg Prod.snd hee
      omega
    · intro pr hpr1 hpr2
      rcases List.mem_map.1 hpr1 with ⟨e, he, hepr⟩
      rcases List.mem_map.1 hpr2 with ⟨e', he', hepr'⟩
      rcases List.mem_flatMap.1 he' with ⟨b', hb', heb'⟩
      obtain ⟨hd, hs1, hs2, _⟩ := renderBlock_fields b e he
      obtain ⟨hd', hs1', hs2', _⟩ := renderBlock_fields b' e' heb'
      rw [← hepr] at hepr'
      have hde : e'.day = e.day := congrArg Prod.fst hepr'
      have hse : e'.session = e.session := congrArg Prod.snd hepr'
      rcases hb b' hb' with h | ⟨h1, h2⟩
      · omega
      · omega

/-- Claim C1: in the schedule returned by `runScheduler`, no two entries share
the same `(day, session)` pair, for every input and configuration. -/
theorem runScheduler_no_double_booking (cfg : Config) (projects : List Project)
    (statuses : List ProjectStatus) (startDay : Int) (blockedSessions : List Int) :
    (((runScheduler cfg projects statuses startDay blockedSessions).schedule).map
      fun e => (e.day, e.session)).Nodup := by
  obtain ⟨blocksF, psF, hInv, hS, _, _⟩ :=
    runScheduler_decomp cfg projects statuses startDay blockedSessions
  rw [hS]
  exact blocks_nodup_pairs blocksF hInv.ordered

theorem getElem?_map_build (cfg : Config) (projects : List Project)
    (statuses : List ProjectStatus) (i : Nat) (q0 : SchedulerProject)
    (h : (projects.map fun p => buildProject cfg p statuses)[i]? = some q0) :
    ∃ p ∈ projects, buildProject cfg p statuses = q0 := by
  rw [List.getElem?_map] at h
  rcases hp : projects[i]? with _ | p
  · rw [hp] at h
    simp at h
  · rw [hp] at h
    injection h with h
    exact ⟨p, List.getElem?_mem hp, h⟩

/-- Claim C4: every returned entry has a session inside `[1, sessionsPerDay]`,
and an entry on the start day never occupies a manually blocked session;
moreover (witnessed by a concrete run) the blocked set imposes no constraint
on later days: with every session of the start day blocked, the unit is
placed on day 2 in a session that is in the blocked set. -/
theorem runScheduler_capacity (cfg : Config) (projects : List Project)
    (statuses : List ProjectStatus) (startDay : Int) (blockedSessions : List Int) :
    (∀ e ∈ (runScheduler cfg projects statuses startDay blockedSessions).schedule,
      (1 ≤ e.session ∧ e.session ≤ cfg.sessionsPerDay) ∧
      (e.day = startDay → ¬ e.session ∈ blockedSessions)) ∧
    ((runScheduler ⟨4, 0, 0⟩ [⟨"a", "Q", 1, 10, [("A", 1)], "c"⟩]
        [⟨"a", "A", 1, 0⟩] 1 [1, 2, 3, 4]).schedule =
      [⟨2, 1, "a", "Q", "A", false, "c"⟩] ∧ (1 : Int) ∈ [1, 2, 3, 4]) := by
  constructor
  · intro e he
    obtain ⟨blocksF, psF, hInv, hS, _, _⟩ :=
      runScheduler_decomp cfg projects statuses startDay blockedSessions
    rw [hS] at he
    rcases List.mem_flatMap.1 he with ⟨b, hb, heb⟩
    obtain ⟨hd, hs1, hs2, _⟩ := renderBlock_fields b e heb
    obtain ⟨hb1, hb2⟩ := hInv.sessBounds b hb
    refine ⟨⟨by omega, by omega⟩, ?_⟩
    intro hds hbl
    exact hInv.blockedFree b hb (hd ▸ hds) e.session hs1 hs2 hbl
  · exact ⟨by decide, by decide⟩

/-- Claim C8 (horizon ceiling): every returned entry lies between the start
day and the fixed 150-day ceiling, and a capacity-exceeded (`limit`) error is
only returned when some order still had incomplete work; termination itself
holds by construction, since the day loop is structural recursion on the fuel
`(151 - day).toNat` that mirrors the `day > 150` check. -/
theorem runScheduler_horizon (cfg : Config) (projects : List Project)
    (statuses : List ProjectStatus) (startDay : Int) (blockedSessions : List Int) :
    (∀ e ∈ (runScheduler cfg projects statuses startDay blockedSessions).schedule,
      startDay ≤ e.day ∧ e.day ≤ 150) ∧
    ((runScheduler cfg projects statuses startDay blockedSessions).error =
        some .limit →
      ∃ p ∈ projects, (buildProject cfg p statuses).isComplete = false) := by
  obtain ⟨blocksF, psF, hInv, hS, _, hL⟩ :=
    runScheduler_decomp cfg projects statuses startDay blockedSessions
  constructor
  · intro e he
    rw [hS] at he
    rcases List.mem_flatMap.1 he with ⟨b, hb, heb⟩
    obtain ⟨hd, _⟩ := renderBlock_fields b e heb
    have h1 := hInv.dayLB b hb
    have h2 := hInv.dayUB b hb
    omega
  · intro herr
    obtain ⟨i, q0, hq0, hq0c⟩ := hL herr
    obtain ⟨p, hp, hpq⟩ := getElem?_map_build cfg projects statuses i q0 hq0
    exact ⟨p, hp, by rw [hpq]; exact hq0c⟩

/-- Claim C6 (corrected): whenever a deadline error is returned, some input
order with incomplete work had its effective deadline (`deadline − buffer`)
exceeded by a simulated day in `[startDay, 150]`, and the error carries that
order's name together with its nominal deadline day — not the effective
deadline day. -/
theorem runScheduler_deadline_error (cfg : Config) (projects : List Project)
    (statuses : List ProjectStatus) (startDay : Int) (blockedSessions : List Int)
    (nm : String) (d : Int)
    (herr : (runScheduler cfg projects statuses startDay blockedSessions).error =
      some (.deadline nm d)) :
    ∃ p ∈ projects, p.name = nm ∧ d = p.deadline ∧
      (buildProject cfg p statuses).isComplete = false ∧
      ∃ dy : Int, startDay ≤ dy ∧ dy ≤ 150 ∧ p.deadline - cfg.deadlineBuffer < dy := by
  obtain ⟨blocksF, psF, hInv, hS, hD, _⟩ :=
    runScheduler_decomp cfg projects statuses startDay blockedSessions
  obtain ⟨i, q0, hq0, hq0c, hnm, hd, dy, hdy1, hdy2, hdy3⟩ := hD nm d herr
  obtain ⟨p, hp, hpq⟩ := getElem?_map_build cfg projects statuses i q0 hq0
  have hqname : q0.name = p.name := by rw [← hpq]; rfl
  have hqdead : q0.deadline = p.deadline - cfg.deadlineBuffer := by rw [← hpq]; rfl
  refine ⟨p, hp, by rw [hnm, hqname], by omega, by rw [hpq]; exact hq0c, dy, hdy1, hdy2, ?_⟩
  omega

/-- Counterexample to claim C6 as stated: with a deadline buffer of 1 (the
spec's safety margin is at least one day), the returned error payload shows
day 1 — the nominal deadline — while the effective deadline day is 0. -/
theorem runScheduler_deadline_error_counterexample :
    (runScheduler ⟨4, 0, 1⟩ [⟨"q", "P", 1, 1, [("A", 1)], "c"⟩]
        [⟨"q", "A", 1, 0⟩] 1 []).error = some (.deadline "P" 1) ∧
    ((1 : Int) - (⟨4, 0, 1⟩ : Config).deadlineBuffer) ≠ 1 := by
  exact ⟨by decide, by decide⟩

theorem entryOcc_iff_block (blocks : List Block) (S : List ScheduleEntry)
    (hS : S = blocks.flatMap renderBlock) (d s : Int) (pid sub : String) :
    entryOcc S d s pid sub ↔ ∃ b ∈ blocks, b.day = d ∧ b.sess ≤ s ∧
      s < b.sess + b.dur ∧ b.pid = pid ∧ b.sub = sub := by
  constructor
  · intro ⟨e, he, h1, h2, h3, h4⟩
    rw [hS] at he
    rcases List.mem_flatMap.1 he with ⟨b, hb, heb⟩
    obtain ⟨hd, hs1, hs2, hp, hsub, _⟩ := renderBlock_fields b e heb
    exact ⟨b, hb, by omega, by omega, by omega, by rw [← hp, h3], by rw [← hsub, h4]⟩
  · intro ⟨b, hb, h1, h2, h3, h4, h5⟩
    obtain ⟨e, hemem, he1, he2, he3, he4⟩ := renderBlock_mem_of_cover b s h2 h3
    refine ⟨e, ?_, by omega, he2, by rw [he3, h4], by rw [he4, h5]⟩
    rw [hS]
    exact List.mem_flatMap.2 ⟨b, hb, hemem⟩

theorem nodup_getElem?_inj {α : Type} (l : List α) (h : l.Nodup) (i j : Nat) (x : α)
    (hi : l[i]? = some x) (hj : l[j]? = some x) : i = j := by
  induction l generalizing i j with
  | nil => simp at hi
  | cons a t ih =>
    obtain ⟨hna, hnt⟩ := List.nodup_cons.1 h
    cases i with
    | zero =>
      cases j with
      | zero => rfl
      | succ m =>
        rw [List.getElem?_cons_zero] at hi
        injection hi with hi
        rw [List.getElem?_cons_succ] at hj
        exact absurd (hi ▸ List.getElem?_mem hj) hna
    | succ n =>
      cases j with
      | zero =>
        rw [List.getElem?_cons_zero] at hj
        injection hj with hj
        rw [List.getElem?_cons_succ] at hi
        exact absurd (hj ▸ List.getElem?_mem hi) hna
      | succ m =>
        rw [List.getElem?_cons_succ] at hi hj
        have := ih hnt n m hi hj
        omega

/-- With unique project ids, a block's `projectId` determines the index of
the working project that committed it. -/
theorem block_idx_det (cfg : Config) (projects : List Project)
    (statuses : List ProjectStatus) (sd : Int) (bl : List Int)
    (psF : List SchedulerProject) (blocks : List Block)
    (hInv : Inv cfg sd bl (projects.map fun p => buildProject cfg p statuses) psF blocks)
    (hids : (projects.map Project.id).Nodup) :
    ∀ b1 ∈ blocks, ∀ b2 ∈ blocks, b1.pid = b2.pid → b1.idx = b2.idx := by
  intro b1 hb1 b2 hb2 hpid
  obtain ⟨q1, hq1, hq1pid, _⟩ := hInv.blockLink b1 hb1
  obtain ⟨q2, hq2, hq2pid, _⟩ := hInv.blockLink b2 hb2
  have hid1 : (projects.map Project.id)[b1.idx]? = some q1.id := by
    rw [List.getElem?_map]
    rw [List.getElem?_map] at hq1
    rcases hp : projects[b1.idx]? with _ | p
    · rw [hp] at hq1
      simp at hq1
    · rw [hp] at hq1
      injection hq1 with hq1
      show some p.id = some q1.id
      rw [← hq1]
      rfl
  have hid2 : (projects.map Project.id)[b2.idx]? = some q2.id := by
    rw [List.getElem?_map]
    rw [List.getElem?_map] at hq2
    rcases hp : projects[b2.idx]? with _ | p
    · rw [hp] at hq2
      simp at hq2
    · rw [hp] at hq2
      injection hq2 with hq2
      show some p.id = some q2.id
      rw [← hq2]
      rfl
  have heq : q1.id = q2.id := by rw [← hq1pid, ← hq2pid, hpid]
  exact nodup_getElem?_inj _ hids b1.idx b2.idx q1.id hid1 (heq ▸ hid2)

theorem pairwise_mem_cases {α : Type} (R : α → α → Prop) (l : List α)
    (h : l.Pairwise R) (a b : α) (ha : a ∈ l) (hb : b ∈ l) :
    a = b ∨ R a b ∨ R b a := by
  induction l with
  | nil => simp at ha
  | cons x t ih =>
    obtain ⟨hx, ht⟩ := List.pairwise_cons.1 h
    rcases List.mem_cons.1 ha with ha' | ha'
    · rcases List.mem_cons.1 hb with hb' | hb'
      · exact Or.inl (ha' ▸ hb' ▸ rfl)
      · exact Or.inr (Or.inl (ha' ▸ hx b hb'))
    · rcases List.mem_cons.1 hb with hb' | hb'
      · exact Or.inr (Or.inr (hb' ▸ hx a ha'))
      · exact ih ht ha' hb'

/-- With a positive cooldown and unique project ids, every maximal run of the
returned schedule is exactly the extent of one commit block. -/
theorem maximalRun_block (cfg : Config) (projects : List Project)
    (statuses : List ProjectStatus) (sd : Int) (bl : List Int)
    (psF : List SchedulerProject) (blocks : List Block)
    (hInv : Inv cfg sd bl (projects.map fun p => buildProject cfg p statuses) psF blocks)
    (hcd : 1 ≤ cfg.cooldown) (hids : (projects.map Project.id).Nodup)
    (S : List ScheduleEntry) (hS : S = blocks.flatMap renderBlock)
    (d a b : Int) (pid sub : String) (hrun : MaximalRun S d a b pid sub) :
    ∃ B ∈ blocks, B.day = d ∧ B.sess = a ∧ B.dur = b - a + 1 ∧
      B.pid = pid ∧ B.sub = sub := by
  obtain ⟨hab, hcov, hlo, hhi⟩ := hrun
  obtain ⟨B, hB, hBd, hB1, hB2, hBp, hBs⟩ :=
    (entryOcc_iff_block blocks S hS d a pid sub).1 (hcov a (le_refl _) hab)
  have hdur := hInv.durPos B hB
  have hsess : B.sess = a := by
    by_contra hne
    have hcover : B.sess ≤ a - 1 ∧ a - 1 < B.sess + B.dur := by omega
    exact hlo ((entryOcc_iff_block blocks S hS d (a - 1) pid sub).2
      ⟨B, hB, hBd, hcover.1, hcover.2, hBp, hBs⟩)
  have hupper : a + B.dur - 1 ≤ b := by
    by_contra hgt
    push_neg at hgt
    have hcover : B.sess ≤ b + 1 ∧ b + 1 < B.sess + B.dur := by omega
    exact hhi ((entryOcc_iff_block blocks S hS d (b + 1) pid sub).2
      ⟨B, hB, hBd, hcover.1, hcover.2, hBp, hBs⟩)
  have hlower : b ≤ a + B.dur - 1 := by
    by_contra hgt
    push_neg at hgt
    obtain ⟨B', hB', hBd', hB1', hB2', hBp', hBs'⟩ :=
      (entryOcc_iff_block blocks S hS d (a + B.dur) pid sub).1
        (hcov (a + B.dur) (by omega) (by omega))
    have hidx : B.idx = B'.idx := block_idx_det cfg projects statuses sd bl psF blocks
      hInv hids B hB B' hB' (by rw [hBp, hBp'])
    have hpw := (hInv.cool (by omega)).and hInv.ordered
    rcases pairwise_mem_cases _ blocks hpw B B' hB hB' with heq | ⟨hc, _⟩ | ⟨hc, _⟩
    · subst heq
      omega
    · have hck := hc ⟨hidx, by rw [hBs, hBs']⟩
      have he1 : blockStart cfg B = (d - 1) * cfg.sessionsPerDay + B.sess := by
        rw [blockStart, hBd]
      have he2 : blockStart cfg B' = (d - 1) * cfg.sessionsPerDay + B'.sess := by
        rw [blockStart, hBd']
      rw [he1, he2] at hck
      omega
    · have hck := hc ⟨hidx.symm, by rw [hBs, hBs']⟩
      have he1 : blockStart cfg B = (d - 1) * cfg.sessionsPerDay + B.sess := by
        rw [blockStart, hBd]
      have he2 : blockStart cfg B' = (d - 1) * cfg.sessionsPerDay + B'.sess := by
        rw [blockStart, hBd']
      rw [he1, he2] at hck
      have hdur' := hInv.durPos B' hB'
      omega
  exact ⟨B, hB, hBd, hsess, by omega, hBp, hBs⟩

/-- Claim C2 (amended): with a cooldown of at least one session and unique
project ids, every maximal run of consecutive same-key sessions within a day
has length exactly the configured duration of that step, and never crosses a
day boundary. -/
theorem runScheduler_atomic_runs (cfg : Config) (projects : List Project)
    (statuses : List ProjectStatus) (startDay : Int) (blockedSessions : List Int)
    (hcd : 1 ≤ cfg.cooldown) (hids : (projects.map Project.id).Nodup) :
    AtomicRuns cfg projects
      (runScheduler cfg projects statuses startDay blockedSessions).schedule := by
  obtain ⟨blocksF, psF, hInv, hS, _, _⟩ :=
    runScheduler_decomp cfg projects statuses startDay blockedSessions
  intro d a b pid sub hrun
  obtain ⟨B, hB, hBd, hBs, hBdur, hBp, hBsub⟩ :=
    maximalRun_block cfg projects statuses startDay blockedSessions psF blocksF
      hInv hcd hids _ hS d a b pid sub hrun
  obtain ⟨q0, hq0, hqpid, _, _, hqdur, _⟩ := hInv.blockLink B hB
  obtain ⟨p, hp, hpq⟩ := getElem?_map_build cfg projects statuses B.idx q0 hq0
  obtain ⟨hb1, hb2⟩ := hInv.sessBounds B hB
  refine ⟨p, hp, ?_, ?_, by omega, by omega⟩
  · rw [← hpq] at hqpid
    rw [← hBp, hqpid]
    rfl
  · have hsubT : q0.durations = p.subTimes := by rw [← hpq]; rfl
    rw [← hBdur, hqdur, hsubT, hBsub]

/-- Counterexample to claim C2 as stated: with cooldown 0 (a configuration
the spec itself uses in Scenario A), two units of the same step are committed
back to back, producing a maximal run of length 4 for a step whose configured
duration is 2. -/
theorem runScheduler_atomic_runs_counterexample :
    ¬ AtomicRuns ⟨4, 0, 0⟩ [⟨"a", "A", 2, 99, [("A", 2)], "c"⟩]
      (runScheduler ⟨4, 0, 0⟩ [⟨"a", "A", 2, 99, [("A", 2)], "c"⟩]
        [⟨"a", "A", 2, 0⟩] 1 []).schedule := by
  intro h
  have hrun : MaximalRun (runScheduler ⟨4, 0, 0⟩ [⟨"a", "A", 2, 99, [("A", 2)], "c"⟩]
      [⟨"a", "A", 2, 0⟩] 1 []).schedule 1 1 4 "a" "A" := by
    refine ⟨by omega, ?_, by decide, by decide⟩
    intro s h1 h2
    have hs : s = 1 ∨ s = 2 ∨ s = 3 ∨ s = 4 := by omega
    rcases hs with rfl | rfl | rfl | rfl <;> decide
  obtain ⟨p, hp, _, hlen, _⟩ := h 1 1 4 "a" "A" hrun
  rw [List.mem_singleton] at hp
  subst hp
  revert hlen
  decide

/-- Claim C3: with a nonnegative cooldown and unique project ids, the global
session gap between the end of an earlier maximal run and the start of a
later maximal run of the same `(projectId, subproductName)` key is at least
the configured cooldown. -/
theorem runScheduler_cooldown_gaps (cfg : Config) (projects : List Project)
    (statuses : List ProjectStatus) (startDay : Int) (blockedSessions : List Int)
    (hcd : 0 ≤ cfg.cooldown) (hids : (projects.map Project.id).Nodup) :
    CooldownGaps cfg
      (runScheduler cfg projects statuses startDay blockedSessions).schedule := by
  obtain ⟨blocksF, psF, hInv, hS, _, _⟩ :=
    runScheduler_decomp cfg projects statuses startDay blockedSessions
  intro d1 a1 b1 d2 a2 b2 pid sub hrun1 hrun2 hlt
  rcases lt_or_le cfg.cooldown 1 with hc1 | hc1
  · have hc0 : cfg.cooldown = 0 := by omega
    rw [hc0]
    omega
  · obtain ⟨B1, hB1, hB1d, hB1s, hB1dur, hB1p, hB1sub⟩ :=
      maximalRun_block cfg projects statuses startDay blockedSessions psF blocksF
        hInv hc1 hids _ hS d1 a1 b1 pid sub hrun1
    obtain ⟨B2, hB2, hB2d, hB2s, hB2dur, hB2p, hB2sub⟩ :=
      maximalRun_block cfg projects statuses startDay blockedSessions psF blocksF
        hInv hc1 hids _ hS d2 a2 b2 pid sub hrun2
    have hidx : B1.idx = B2.idx := block_idx_det cfg projects statuses startDay
      blockedSessions psF blocksF hInv hids B1 hB1 B2 hB2 (by rw [hB1p, hB2p])
    have hab1 := hrun1.1
    have hab2 := hrun2.1
    have he1 : blockStart cfg B1 = gIdx cfg d1 a1 := by
      rw [blockStart, gIdx, hB1d, hB1s]
    have he2 : blockStart cfg B2 = gIdx cfg d2 a2 := by
      rw [blockStart, gIdx, hB2d, hB2s]
    have hgi1 : gIdx cfg d1 a1 + (b1 - a1) = gIdx cfg d1 b1 := by
      rw [gIdx, gIdx]
      omega
    have hgi2 : gIdx cfg d2 a2 + (b2 - a2) = gIdx cfg d2 b2 := by
      rw [gIdx, gIdx]
      omega
    rcases pairwise_mem_cases _ blocksF (hInv.cool hcd) B1 B2 hB1 hB2 with
      heq | hc | hc
    · subst heq
      have hsame : gIdx cfg d1 a1 = gIdx cfg d2 a2 := by rw [← he1, ← he2]
      omega
    · have hck := hc ⟨hidx, by rw [hB1sub, hB2sub]⟩
      rw [he1, he2, hB1dur] at hck
      omega
    · have hck := hc ⟨hidx.symm, by rw [hB1sub, hB2sub]⟩
      rw [he1, he2, hB2dur] at hck
      omega

/-- Claim C5: at a free session where at least one order has an eligible
step, `sessionStep` commits a unit of the candidate returned by `pickBest`,
which is the first candidate of maximal urgency `priority`
(`totalSessionsRemaining / max(0.1, effectiveDeadline − (day − 1))`): every
candidate's urgency is at most the winner's, every candidate strictly before
the winner in candidate order has strictly smaller urgency, and the candidate
order refines the input project order (indices strictly increase). -/
theorem sessionStep_commits_most_urgent (cfg : Config) (day sess : Int) (st : SimState)
    (cands : List Candidate) (c0 : Candidate) (rest : List Candidate)
    (hfree : st.occ.contains sess = false)
    (hc : collectCandidates cfg st.occ day sess
      ((day - 1) * cfg.sessionsPerDay + sess) 0 st.ps = .ok cands)
    (hne : cands = c0 :: rest) :
    ∃ best, pickBest day cands = some best ∧ best ∈ cands ∧
      (∀ c ∈ cands, priority day c.proj ≤ priority day best.proj) ∧
      (∃ i : Nat, cands[i]? = some best ∧ ∀ (j : Nat) (c : Candidate), j < i →
        cands[j]? = some c → priority day c.proj < priority day best.proj) ∧
      cands.Pairwise (fun c1 c2 => c1.idx < c2.idx) ∧
      (∀ c ∈ cands, st.ps[c.idx]? = some c.proj ∧ c.proj.isComplete = false ∧
        c.subs = validSubs cfg st.occ sess ((day - 1) * cfg.sessionsPerDay + sess) c.proj ∧
        c.subs ≠ []) ∧
      ∃ bs st', pickSub best.proj best.subs = some bs ∧ bs ∈ best.subs ∧
        sessionStep cfg day sess st = .ok st' ∧
        st'.sched = st.sched ++
          mkEntries day sess best.proj bs (getD best.proj.durations bs) ∧
        ∀ e ∈ mkEntries day sess best.proj bs (getD best.proj.durations bs),
          e.projectId = best.proj.id ∧ e.subproductName = bs := by
  subst hne
  have hcneg : ¬ st.occ.contains sess = true := by rw [hfree]; exact Bool.false_ne_true
  obtain ⟨best, hpb⟩ : ∃ best, pickBest day (c0 :: rest) = some best := ⟨_, rfl⟩
  have hbmem := pickBest_mem day (c0 :: rest) best hpb
  obtain ⟨i, hi, hle, hltfst⟩ := pickBest_argmax_first day (c0 :: rest) best hpb
  have hmem := collectCandidates_ok_mem cfg st.occ day sess
    ((day - 1) * cfg.sessionsPerDay + sess) 0 st.ps (c0 :: rest) hc
  obtain ⟨j, hjlen, hidx, hjget, hjc, _, hsubs, hsne⟩ := hmem best hbmem
  obtain ⟨bs, hps⟩ : ∃ bs, pickSub best.proj best.subs = some bs := by
    rcases hbs : best.subs with _ | ⟨a, l⟩
    · exact absurd hbs hsne
    · exact ⟨_, by rw [pickSub]⟩
  have hstep : sessionStep cfg day sess st = .ok
      { ps := st.ps.set best.idx
          { best.proj with
            remainingUnits := setA best.proj.remainingUnits bs
              (getD best.proj.remainingUnits bs - 1),
            moldReady := setA best.proj.moldReady bs
              ((day - 1) * cfg.sessionsPerDay + sess +
                getD best.proj.durations bs + cfg.cooldown) },
        occ := st.occ ++ (List.range (getD best.proj.durations bs).toNat).map
          (fun i : Nat => sess + (i : Int)),
        sched := st.sched ++ mkEntries day sess best.proj bs
          (getD best.proj.durations bs) } := by
    simp only [sessionStep, if_neg hcneg, hc, hpb, hps]
  refine ⟨best, hpb, hbmem, ?_, ⟨i, hi, fun j c hj hc' => hltfst j c hj hc'⟩, ?_, ?_,
    bs, _, hps, pickSub_mem _ _ _ hps, hstep, rfl, ?_⟩
  · intro c hcm
    obtain ⟨k, hk⟩ := List.mem_iff_getElem?.1 hcm
    exact hle k c hk
  · exact collectCandidates_ok_idx cfg st.occ day sess _ 0 st.ps (c0 :: rest) hc
  · intro c hcm
    obtain ⟨k, _, hkidx, hkget, hkc, _, hksubs, hkne⟩ := hmem c hcm
    refine ⟨?_, hkc, hksubs, hkne⟩
    rw [show c.idx = k by omega]
    exact hkget
  · intro e he
    rw [mkEntries] at he
    rcases List.mem_map.1 he with ⟨k, _, hek⟩
    subst hek
    exact ⟨rfl, rfl⟩

/-! ### Append-only accumulation (no backtracking) -/

theorem sessionStep_acc (cfg : Config) (day sess : Int) (ps : List SchedulerProject)
    (occ : List Int) (acc : List ScheduleEntry) :
    sessionStep cfg day sess ⟨ps, occ, acc⟩ =
      match sessionStep cfg day sess ⟨ps, occ, []⟩ with
      | .ok st' => .ok ⟨st'.ps, st'.occ, acc ++ st'.sched⟩
      | .error (sch, e) => .error (acc ++ sch, e) := by
  by_cases hc : occ.contains sess = true
  · simp only [sessionStep, if_pos hc]
    simp
  · rcases hcands : collectCandidates cfg occ day sess
        ((day - 1) * cfg.sessionsPerDay + sess) 0 ps with e | cands
    · simp only [sessionStep, if_neg hc, hcands]
      simp
    · rcases hpb : pickBest day cands with _ | best
      · simp only [sessionStep, if_neg hc, hcands, hpb]
        simp
      · rcases hps : pickSub best.proj best.subs with _ | bs
        · simp only [sessionStep, if_neg hc, hcands, hpb, hps]
          simp
        · simp only [sessionStep, if_neg hc, hcands, hpb, hps]
          simp

theorem runDay_acc (cfg : Config) (day : Int) :
    ∀ (l : List Int) (ps : List SchedulerProject) (occ : List Int)
      (acc : List ScheduleEntry),
      runDay cfg day l ⟨ps, occ, acc⟩ =
        match runDay cfg day l ⟨ps, occ, []⟩ with
        | .ok st' => .ok ⟨st'.ps, st'.occ, acc ++ st'.sched⟩
        | .error (sch, e) => .error (acc ++ sch, e) := by
  intro l
  induction l with
  | nil =>
    intro ps occ acc
    simp [runDay]
  | cons s rest ih =>
    intro ps occ acc
    rw [runDay, runDay, sessionStep_acc]
    rcases hstep : sessionStep cfg day s ⟨ps, occ, []⟩ with e | st0
    · rcases e with ⟨sch, e⟩
      simp only
    · simp only
      have h1 := ih st0.ps st0.occ (acc ++ st0.sched)
      have h2 := ih st0.ps st0.occ st0.sched
      have hst0 : (⟨st0.ps, st0.occ, st0.sched⟩ : SimState) = st0 := rfl
      rw [hst0] at h2
      rw [h1, h2]
      rcases hrest : runDay cfg day rest ⟨st0.ps, st0.occ, []⟩ with e' | st1
      · rcases e' with ⟨sch', e'⟩
        simp [List.append_assoc]
      · simp [List.append_assoc]

theorem runDaysAux_acc (cfg : Config) (sd : Int) (bl : List Int) :
    ∀ (fuel : Nat) (day : Int) (ps : List SchedulerProject) (acc : List ScheduleEntry),
      runDaysAux cfg sd bl fuel day ps acc =
        ⟨acc ++ (runDaysAux cfg sd bl fuel day ps []).schedule,
         (runDaysAux cfg sd bl fuel day ps []).error⟩ := by
  intro fuel
  induction fuel with
  | zero =>
    intro day ps acc
    rw [runDaysAux, runDaysAux]
    by_cases hall : ps.all SchedulerProject.isComplete = true
    · rw [if_pos hall, if_pos hall]
      simp
    · rw [if_neg hall, if_neg hall]
      by_cases h150 : 150 < day
      · rw [if_pos h150, if_pos h150]
        simp
      · rw [if_neg h150, if_neg h150]
        simp
  | succ fuel ih =>
    intro day ps acc
    rw [runDaysAux, runDaysAux]
    by_cases hall : ps.all SchedulerProject.isComplete = true
    · rw [if_pos hall, if_pos hall]
      simp
    · rw [if_neg hall, if_neg hall]
      by_cases h150 : 150 < day
      · rw [if_pos h150, if_pos h150]
        simp
      · rw [if_neg h150, if_neg h150]
        simp only
        rw [runDay_acc]
        rcases hrun : runDay cfg day (sessionNumbers cfg)
            ⟨ps, (if day = sd then
              bl.filter (fun s => decide (1 ≤ s) && decide (s ≤ cfg.sessionsPerDay))
              else []), []⟩ with e | st0
        · rcases e with ⟨sch, e⟩
          simp only
        · simp only
          rw [ih (day + 1) st0.ps (acc ++ st0.sched), ih (day + 1) st0.ps st0.sched]
          simp [List.append_assoc]

/-- Claim C7: `runScheduler` always returns a plain result (the day loop is a
total function), and the simulation is append-only: whatever entries have
already been committed are returned verbatim as a prefix, unchanged by and
not influencing the remaining computation — there is no internal retry or
backtracking, and on an error the result is exactly the committed prefix. -/
theorem runScheduler_no_retry (cfg : Config) (projects : List Project)
    (statuses : List ProjectStatus) (startDay : Int) (blockedSessions : List Int) :
    (∀ (day : Int) (ps : List SchedulerProject) (sched : List ScheduleEntry),
      runDays cfg startDay blockedSessions day ps sched =
        ⟨sched ++ (runDays cfg startDay blockedSessions day ps []).schedule,
         (runDays cfg startDay blockedSessions day ps []).error⟩) ∧
    runScheduler cfg projects statuses startDay blockedSessions =
      runDays cfg startDay blockedSessions startDay
        (projects.map fun p => buildProject cfg p statuses) [] := by
  constructor
  · intro day ps sched
    rw [runDays, runDays]
    exact runDaysAux_acc cfg startDay blockedSessions _ day ps sched
  · rfl

theorem shiftC_proj (t : Nat) (c : Candidate) : (shiftC t c).proj = c.proj := by
  rw [shiftC]
  by_cases h : t ≤ c.idx
  · rw [if_pos h]
  · rw [if_neg h]

theorem shiftC_subs (t : Nat) (c : Candidate) : (shiftC t c).subs = c.subs := by
  rw [shiftC]
  by_cases h : t ≤ c.idx
  · rw [if_pos h]
  · rw [if_neg h]

theorem collectCandidates_succ (cfg : Config) (occ : List Int) (day sess g : Int) :
    ∀ (l : List SchedulerProject) (i : Nat),
      collectCandidates cfg occ day sess g (i + 1) l =
        (collectCandidates cfg occ day sess g i l).map
          (List.map fun c => ⟨c.idx + 1, c.proj, c.subs⟩) := by
  intro l
  induction l with
  | nil =>
    intro i
    rfl
  | cons p rest ih =>
    intro i
    rw [collectCandidates, collectCandidates]
    by_cases hcmp : p.isComplete
    · rw [if_pos hcmp, if_pos hcmp, ih (i + 1)]
    · rw [if_neg hcmp, if_neg hcmp]
      by_cases hd : p.deadline < day
      · rw [if_pos hd, if_pos hd]
        rfl
      · rw [if_neg hd, if_neg hd]
        rw [ih (i + 1)]
        rcases hrec : collectCandidates cfg occ day sess g (i + 1) rest with e | cs
        · rfl
        · simp only [Except.map]
          by_cases hvs : (validSubs cfg occ sess g p).isEmpty
          · rw [if_pos hvs, if_pos hvs]
          · rw [if_neg hvs, if_neg hvs]
            rfl

theorem collectCandidates_skip (cfg : Config) (occ : List Int) (day sess g : Int)
    (q : SchedulerProject) (hq : q.isComplete = true) :
    ∀ (l1 l2 : List SchedulerProject) (i : Nat),
      collectCandidates cfg occ day sess g i (l1 ++ q :: l2) =
        (collectCandidates cfg occ day sess g i (l1 ++ l2)).map
          (List.map (shiftC (i + l1.length))) := by
  intro l1
  induction l1 with
  | nil =>
    intro l2 i
    simp only [List.nil_append, List.length_nil, Nat.add_zero]
    rw [collectCandidates, if_pos hq, collectCandidates_succ]
    rcases hrec : collectCandidates cfg occ day sess g i l2 with e | cs
    · rfl
    · simp only [Except.map]
      congr 1
      apply List.map_congr_left
      intro c hcm
      have hlb := collectCandidates_ok_idx_lb cfg occ day sess g i l2 cs hrec c hcm
      rw [shiftC, if_pos hlb]
  | cons p l1 ih =>
    intro l2 i
    simp only [List.cons_append]
    rw [collectCandidates, collectCandidates]
    have hthr : i + 1 + l1.length = i + (p :: l1).length := by
      rw [List.length_cons]
      omega
    by_cases hcmp : p.isComplete
    · rw [if_pos hcmp, if_pos hcmp, ih l2 (i + 1), hthr]
    · rw [if_neg hcmp, if_neg hcmp]
      by_cases hd : p.deadline < day
      · rw [if_pos hd, if_pos hd]
        rfl
      · rw [if_neg hd, if_neg hd]
        rw [ih l2 (i + 1), hthr]
        rcases hrec : collectCandidates cfg occ day sess g (i + 1) (l1 ++ l2) with e | cs
        · rfl
        · simp only [Except.map]
          by_cases hvs : (validSubs cfg occ sess g p).isEmpty
          · rw [if_pos hvs, if_pos hvs]
          · rw [if_neg hvs, if_neg hvs]
            simp only [List.map_cons]
            congr 1
            rw [shiftC, if_neg (show ¬ (i + (p :: l1).length ≤ i) by rw [List.length_cons]; omega)]

theorem pickBest_map_proj (day : Int) (φ : Candidate → Candidate)
    (hφ : ∀ c, (φ c).proj = c.proj) :
    ∀ cs : List Candidate, pickBest day (cs.map φ) = (pickBest day cs).map φ := by
  intro cs
  cases cs with
  | nil => rfl
  | cons c cs =>
    simp only [List.map_cons, pickBest, Option.map_some]
    congr 1
    induction cs generalizing c with
    | nil => rfl
    | cons b cs ih =>
      simp only [List.map_cons, List.foldl_cons, hφ]
      by_cases hlt : priority day c.proj < priority day b.proj
      · rw [if_pos hlt, if_pos hlt, ih b]
      · rw [if_neg hlt, if_neg hlt, ih c]

theorem sessionStep_skip (cfg : Config) (day sess : Int) (q : SchedulerProject)
    (hq : q.isComplete = true) (l1 l2 : List SchedulerProject) (occ : List Int)
    (sched : List ScheduleEntry) :
    (∀ r, sessionStep cfg day sess ⟨l1 ++ l2, occ, sched⟩ = .error r →
      sessionStep cfg day sess ⟨l1 ++ q :: l2, occ, sched⟩ = .error r) ∧
    (∀ st', sessionStep cfg day sess ⟨l1 ++ l2, occ, sched⟩ = .ok st' →
      ∃ m1 m2, st'.ps = m1 ++ m2 ∧ m1.length = l1.length ∧
        sessionStep cfg day sess ⟨l1 ++ q :: l2, occ, sched⟩ =
          .ok ⟨m1 ++ q :: m2, st'.occ, st'.sched⟩) := by
  by_cases hc : occ.contains sess = true
  · have hsmall : sessionStep cfg day sess ⟨l1 ++ l2, occ, sched⟩ =
        .ok ⟨l1 ++ l2, occ, sched⟩ := by
      simp only [sessionStep, if_pos hc]
    have hbig : sessionStep cfg day sess ⟨l1 ++ q :: l2, occ, sched⟩ =
        .ok ⟨l1 ++ q :: l2, occ, sched⟩ := by
      simp only [sessionStep, if_pos hc]
    constructor
    · intro r hr
      rw [hsmall] at hr
      exact Except.noConfusion hr
    · intro st' hst'
      rw [hsmall] at hst'
      injection hst' with hst'
      exact ⟨l1, l2, by rw [← hst'], rfl, by rw [hbig, ← hst']⟩
  · have hskip := collectCandidates_skip cfg occ day sess
      ((day - 1) * cfg.sessionsPerDay + sess) q hq l1 l2 0
    simp only [Nat.zero_add] at hskip
    rcases hcands : collectCandidates cfg occ day sess
        ((day - 1) * cfg.sessionsPerDay + sess) 0 (l1 ++ l2) with e | cs
    · rw [hcands] at hskip
      have hsmall : sessionStep cfg day sess ⟨l1 ++ l2, occ, sched⟩ =
          .error (sched, e) := by
        simp only [sessionStep, if_neg hc, hcands]
      have hbig : sessionStep cfg day sess ⟨l1 ++ q :: l2, occ, sched⟩ =
          .error (sched, e) := by
        simp only [sessionStep, if_neg hc, hskip, Except.map]
      constructor
      · intro r hr
        rw [hsmall] at hr
        injection hr with hr
        rw [hbig, hr]
      · intro st' hst'
        rw [hsmall] at hst'
        exact Except.noConfusion hst'
    · rw [hcands] at hskip
      have hpbm := pickBest_map_proj day (shiftC l1.length) (shiftC_proj l1.length) cs
      rcases hpb : pickBest day cs with _ | best
      · rw [hpb] at hpbm
        have hsmall : sessionStep cfg day sess ⟨l1 ++ l2, occ, sched⟩ =
            .ok ⟨l1 ++ l2, occ, sched⟩ := by
          simp only [sessionStep, if_neg hc, hcands, hpb]
        have hbig : sessionStep cfg day sess ⟨l1 ++ q :: l2, occ, sched⟩ =
            .ok ⟨l1 ++ q :: l2, occ, sched⟩ := by
          simp only [sessionStep, if_neg hc, hskip, Except.map, hpbm, Option.map_none']
        constructor
        · intro r hr
          rw [hsmall] at hr
          exact Except.noConfusion hr
        · intro st' hst'
          rw [hsmall] at hst'
          injection hst' with hst'
          exact ⟨l1, l2, by rw [← hst'], rfl, by rw [hbig, ← hst']⟩
      · rw [hpb] at hpbm
        rcases hps : pickSub best.proj best.subs with _ | bs
        · have hsmall : sessionStep cfg day sess ⟨l1 ++ l2, occ, sched⟩ =
              .ok ⟨l1 ++ l2, occ, sched⟩ := by
            simp only [sessionStep, if_neg hc, hcands, hpb, hps]
          have hbig : sessionStep cfg day sess ⟨l1 ++ q :: l2, occ, sched⟩ =
              .ok ⟨l1 ++ q :: l2, occ, sched⟩ := by
            simp only [sessionStep, if_neg hc, hskip, Except.map, hpbm, Option.map_some',
              shiftC_proj, shiftC_subs, hps]
          constructor
          · intro r hr
            rw [hsmall] at hr
            exact Except.noConfusion hr
          · intro st' hst'
            rw [hsmall] at hst'
            injection hst' with hst'
            exact ⟨l1, l2, by rw [← hst'], rfl, by rw [hbig, ← hst']⟩
        · have hsmall : sessionStep cfg day sess ⟨l1 ++ l2, occ, sched⟩ = .ok
              { ps := (l1 ++ l2).set best.idx
                  { best.proj with
                    remainingUnits := setA best.proj.remainingUnits bs
                      (getD best.proj.remainingUnits bs - 1),
                    moldReady := setA best.proj.moldReady bs
                      ((day - 1) * cfg.sessionsPerDay + sess +
                        getD best.proj.durations bs + cfg.cooldown) },
                occ := occ ++ (List.range (getD best.proj.durations bs).toNat).map
                  (fun i : Nat => sess + (i : Int)),
                sched := sched ++ mkEntries day sess best.proj bs
                  (getD best.proj.durations bs) } := by
            simp only [sessionStep, if_neg hc, hcands, hpb, hps]
          have hbig : sessionStep cfg day sess ⟨l1 ++ q :: l2, occ, sched⟩ = .ok
              { ps := (l1 ++ q :: l2).set (shiftC l1.length best).idx
                  { best.proj with
                    remainingUnits := setA best.proj.remainingUnits bs
                      (getD best.proj.remainingUnits bs - 1),
                    moldReady := setA best.proj.moldReady bs
                      ((day - 1) * cfg.sessionsPerDay + sess +
                        getD best.proj.durations bs + cfg.cooldown) },
                occ := occ ++ (List.range (getD best.proj.durations bs).toNat).map
                  (fun i : Nat => sess + (i : Int)),
                sched := sched ++ mkEntries day sess best.proj bs
                  (getD best.proj.durations bs) } := by
            simp only [sessionStep, if_neg hc, hskip, Except.map, hpbm, Option.map_some',
              shiftC_proj, shiftC_subs, hps]
          constructor
          · intro r hr
            rw [hsmall] at hr
            exact Except.noConfusion hr
          · intro st' hst'
            rw [hsmall] at hst'
            injection hst' with hst'
            obtain ⟨P, hP⟩ : ∃ P : SchedulerProject, P =
                { best.proj with
                  remainingUnits := setA best.proj.remainingUnits bs
                    (getD best.proj.remainingUnits bs - 1),
                  moldReady := setA best.proj.moldReady bs
                    ((day - 1) * cfg.sessionsPerDay + sess +
                      getD best.proj.durations bs + cfg.cooldown) } := ⟨_, rfl⟩
            rw [← hP] at hst' hbig
            by_cases hlt : best.idx < l1.length
            · refine ⟨l1.set best.idx P, l2, ?_, by rw [List.length_set], ?_⟩
              · rw [← hst']
                show (l1 ++ l2).set best.idx P = l1.set best.idx P ++ l2
                rw [List.set_append_left _ _ hlt]
              · rw [hbig, ← hst']
                rw [show (shiftC l1.length best).idx = best.idx from by
                  rw [shiftC, if_neg (by omega)]]
                rw [List.set_append_left _ _ hlt]
            · push_neg at hlt
              refine ⟨l1, l2.set (best.idx - l1.length) P, ?_, rfl, ?_⟩
              · rw [← hst']
                show (l1 ++ l2).set best.idx P = l1 ++ l2.set (best.idx - l1.length) P
                rw [List.set_append_right _ _ hlt]
              · rw [hbig, ← hst']
                rw [show (shiftC l1.length best).idx = best.idx + 1 from by
                  rw [shiftC, if_pos hlt]]
                rw [List.set_append_right _ _ (by omega : l1.length ≤ best.idx + 1)]
                rw [show best.idx + 1 - l1.length = (best.idx - l1.length) + 1 from by omega]
                rfl

theorem runDay_skip (cfg : Config) (day : Int) (q : SchedulerProject)
    (hq : q.isComplete = true) :
    ∀ (ss : List Int) (l1 l2 : List SchedulerProject) (occ : List Int)
      (sched : List ScheduleEntry),
    (∀ r, runDay cfg day ss ⟨l1 ++ l2, occ, sched⟩ = .error r →
      runDay cfg day ss ⟨l1 ++ q :: l2, occ, sched⟩ = .error r) ∧
    (∀ st', runDay cfg day ss ⟨l1 ++ l2, occ, sched⟩ = .ok st' →
      ∃ m1 m2, st'.ps = m1 ++ m2 ∧ m1.length = l1.length ∧
        runDay cfg day ss ⟨l1 ++ q :: l2, occ, sched⟩ =
          .ok ⟨m1 ++ q :: m2, st'.occ, st'.sched⟩) := by
  intro ss
  induction ss with
  | nil =>
    intro l1 l2 occ sched
    constructor
    · intro r hr
      simp only [runDay] at hr
      exact Except.noConfusion hr
    · intro st' hst'
      simp only [runDay] at hst'
      injection hst' with hst'
      exact ⟨l1, l2, by rw [← hst'], rfl, by simp only [runDay]; rw [← hst']⟩
  | cons s rest ih =>
    intro l1 l2 occ sched
    have hstep := sessionStep_skip cfg day s q hq l1 l2 occ sched
    rcases hss : sessionStep cfg day s ⟨l1 ++ l2, occ, sched⟩ with e | st1
    · have hbigs := hstep.1 e hss
      constructor
      · intro r hr
        simp only [runDay, hss] at hr
        simp only [runDay, hbigs]
        rw [← hr]
      · intro st' hst'
        simp only [runDay, hss] at hst'
        exact Except.noConfusion hst'
    · obtain ⟨m1, m2, hps, hlen, hbigs⟩ := hstep.2 st1 hss
      have hst1 : st1 = ⟨m1 ++ m2, st1.occ, st1.sched⟩ := by
        cases st1
        simp only at hps
        rw [hps]
      have ih' := ih m1 m2 st1.occ st1.sched
      constructor
      · intro r hr
        simp only [runDay, hss] at hr
        simp only [runDay, hbigs]
        exact ih'.1 r (by rw [← hst1]; exact hr)
      · intro st' hst'
        simp only [runDay, hss] at hst'
        obtain ⟨n1, n2, hps', hlen', hbig'⟩ :=
          ih'.2 st' (by rw [← hst1]; exact hst')
        refine ⟨n1, n2, hps', by rw [hlen', hlen], ?_⟩
        simp only [runDay, hbigs]
        exact hbig'

theorem runDaysAux_skip (cfg : Config) (sd : Int) (bl : List Int)
    (q : SchedulerProject) (hq : q.isComplete = true) :
    ∀ (fuel : Nat) (day : Int) (l1 l2 : List SchedulerProject)
      (sched : List ScheduleEntry),
      runDaysAux cfg sd bl fuel day (l1 ++ q :: l2) sched =
        runDaysAux cfg sd bl fuel day (l1 ++ l2) sched := by
  intro fuel
  induction fuel with
  | zero =>
    intro day l1 l2 sched
    rw [runDaysAux, runDaysAux]
    have hall : (l1 ++ q :: l2).all SchedulerProject.isComplete =
        (l1 ++ l2).all SchedulerProject.isComplete := by
      simp [List.all_append, List.all_cons, hq]
    rw [hall]
  | succ fuel ih =>
    intro day l1 l2 sched
    rw [runDaysAux, runDaysAux]
    have hall : (l1 ++ q :: l2).all SchedulerProject.isComplete =
        (l1 ++ l2).all SchedulerProject.isComplete := by
      simp [List.all_append, List.all_cons, hq]
    rw [hall]
    by_cases h1 : (l1 ++ l2).all SchedulerProject.isComplete = true
    · rw [if_pos h1, if_pos h1]
    · rw [if_neg h1, if_neg h1]
      by_cases h2 : 150 < day
      · rw [if_pos h2, if_pos h2]
      · rw [if_neg h2, if_neg h2]
        simp only
        have hskip := runDay_skip cfg day q hq (sessionNumbers cfg) l1 l2
          (if day = sd then
            bl.filter (fun s => decide (1 ≤ s) && decide (s ≤ cfg.sessionsPerDay))
            else []) sched
        rcases hrun : runDay cfg day (sessionNumbers cfg)
            ⟨l1 ++ l2, (if day = sd then
              bl.filter (fun s => decide (1 ≤ s) && decide (s ≤ cfg.sessionsPerDay))
              else []), sched⟩ with e | st0
        · rcases e with ⟨sch, e⟩
          rw [hskip.1 (sch, e) hrun]
        · obtain ⟨m1, m2, hps, hlen, hbig⟩ := hskip.2 st0 hrun
          rw [hbig]
          simp only
          rw [ih (day + 1) m1 m2 st0.sched, hps]

theorem buildProject_good (cfg : Config) (p : Project) (statuses : List ProjectStatus) :
    GoodProj statuses (buildProject cfg p statuses) := by
  intro s hs
  have hs' : s ∈ ((statuses.filter fun st => st.projectId == p.id).foldl
      (fun m st => setA m st.subproductName st.unitsRemaining) []).map Prod.fst := hs
  rcases mem_foldl_setA_keys _ _ _ _ hs' with h | ⟨st, hstmem, hname⟩
  · simp at h
  · rw [List.mem_filter] at hstmem
    exact ⟨st, hstmem.1, by simpa using hstmem.2, hname⟩

theorem buildProject_no_status (cfg : Config) (p : Project) (statuses : List ProjectStatus)
    (h : ∀ st ∈ statuses, st.projectId ≠ p.id) :
    (buildProject cfg p statuses).isComplete = true := by
  have hfil : statuses.filter (fun st => st.projectId == p.id) = [] := by
    rw [List.filter_eq_nil_iff]
    intro st hst
    simp [h st hst]
  show ((statuses.filter fun st => st.projectId == p.id).foldl
      (fun m st => setA m st.subproductName st.unitsRemaining) []).all
      (fun e => e.2 == 0) = true
  rw [hfil]
  rfl

theorem sessionStep_good (cfg : Config) (day sess : Int) (statuses : List ProjectStatus)
    (st : SimState) (hg : GoodState statuses st) :
    (∀ r, sessionStep cfg day sess st = .error r →
      ∀ e ∈ r.1, HasStatus statuses e.projectId e.subproductName) ∧
    (∀ st', sessionStep cfg day sess st = .ok st' → GoodState statuses st') := by
  by_cases hc : st.occ.contains sess = true
  · have heq : sessionStep cfg day sess st = .ok st := by
      simp only [sessionStep, if_pos hc]
    constructor
    · intro r hr
      rw [heq] at hr
      exact Except.noConfusion hr
    · intro st' hst'
      rw [heq] at hst'
      injection hst' with h
      rw [← h]
      exact hg
  · rcases hcands : collectCandidates cfg st.occ day sess
        ((day - 1) * cfg.sessionsPerDay + sess) 0 st.ps with e | cs
    · have heq : sessionStep cfg day sess st = .error (st.sched, e) := by
        simp only [sessionStep, if_neg hc, hcands]
      constructor
      · intro r hr
        rw [heq] at hr
        injection hr with hr
        rw [← hr]
        exact fun e' he' => hg.2 e' he'
      · intro st' hst'
        rw [heq] at hst'
        exact Except.noConfusion hst'
    · rcases hpb : pickBest day cs with _ | best
      · have heq : sessionStep cfg day sess st = .ok st := by
          simp only [sessionStep, if_neg hc, hcands, hpb]
        constructor
        · intro r hr
          rw [heq] at hr
          exact Except.noConfusion hr
        · intro st' hst'
          rw [heq] at hst'
          injection hst' with h
          rw [← h]
          exact hg
      · rcases hps : pickSub best.proj best.subs with _ | bs
        · have heq : sessionStep cfg day sess st = .ok st := by
            simp only [sessionStep, if_neg hc, hcands, hpb, hps]
          constructor
          · intro r hr
            rw [heq] at hr
            exact Except.noConfusion hr
          · intro st' hst'
            rw [heq] at hst'
            injection hst' with h
            rw [← h]
            exact hg
        · have heq : sessionStep cfg day sess st = .ok
              { ps := st.ps.set best.idx
                  { best.proj with
                    remainingUnits := setA best.proj.remainingUnits bs
                      (getD best.proj.remainingUnits bs - 1),
                    moldReady := setA best.proj.moldReady bs
                      ((day - 1) * cfg.sessionsPerDay + sess +
                        getD best.proj.durations bs + cfg.cooldown) },
                occ := st.occ ++ (List.range (getD best.proj.durations bs).toNat).map
                  (fun i : Nat => sess + (i : Int)),
                sched := st.sched ++ mkEntries day sess best.proj bs
                  (getD best.proj.durations bs) } := by
            simp only [sessionStep, if_neg hc, hcands, hpb, hps]
          have hmem := pickBest_mem day cs best hpb
          obtain ⟨j, hj, hidx, hget, hcompl, hdl, hsubs, hne⟩ :=
            collectCandidates_ok_mem cfg st.occ day sess
              ((day - 1) * cfg.sessionsPerDay + sess) 0 st.ps cs hcands best hmem
          have hproj : best.proj ∈ st.ps := List.getElem?_mem hget
          have hgp : GoodProj statuses best.proj := hg.1 _ hproj
          have hbs : bs ∈ validSubs cfg st.occ sess
              ((day - 1) * cfg.sessionsPerDay + sess) best.proj := by
            have := pickSub_mem best.proj best.subs bs hps
            rwa [hsubs] at this
          have hbskey : bs ∈ best.proj.remainingUnits.map Prod.fst :=
            ((validSubs_mem cfg st.occ sess _ best.proj bs).1 hbs).1
          constructor
          · intro r hr
            rw [heq] at hr
            exact Except.noConfusion hr
          · intro st' hst'
            rw [heq] at hst'
            injection hst' with h
            rw [← h]
            constructor
            · intro p' hp'
              rcases List.mem_or_eq_of_mem_set hp' with h' | h'
              · exact hg.1 p' h'
              · rw [h']
                intro s hs
                have hs' : s ∈ (setA best.proj.remainingUnits bs
                    (getD best.proj.remainingUnits bs - 1)).map Prod.fst := hs
                rw [setA_keys_of_mem _ _ _ hbskey] at hs'
                exact hgp s hs'
            · intro e' he'
              rcases List.mem_append.1 he' with h' | h'
              · exact hg.2 e' h'
              · rcases List.mem_map.1 h' with ⟨i, _, hei⟩
                rw [← hei]
                exact hgp bs hbskey

theorem runDay_good (cfg : Config) (day : Int) (statuses : List ProjectStatus) :
    ∀ (ss : List Int) (st : SimState), GoodState statuses st →
    (∀ r, runDay cfg day ss st = .error r →
      ∀ e ∈ r.1, HasStatus statuses e.projectId e.subproductName) ∧
    (∀ st', runDay cfg day ss st = .ok st' → GoodState statuses st') := by
  intro ss
  induction ss with
  | nil =>
    intro st hg
    constructor
    · intro r hr
      simp only [runDay] at hr
      exact Except.noConfusion hr
    · intro st' hst'
      simp only [runDay] at hst'
      injection hst' with h
      rw [← h]
      exact hg
  | cons s rest ih =>
    intro st hg
    have hstep := sessionStep_good cfg day s statuses st hg
    rcases hss : sessionStep cfg day s st with e | st1
    · constructor
      · intro r hr
        simp only [runDay, hss] at hr
        injection hr with hr
        rw [← hr]
        exact hstep.1 e hss
      · intro st' hst'
        simp only [runDay, hss] at hst'
        exact Except.noConfusion hst'
    · have hg1 : GoodState statuses st1 := hstep.2 st1 hss
      have ih' := ih st1 hg1
      constructor
      · intro r hr
        simp only [runDay, hss] at hr
        exact ih'.1 r hr
      · intro st' hst'
        simp only [runDay, hss] at hst'
        exact ih'.2 st' hst'

theorem runDaysAux_good (cfg : Config) (sd : Int) (bl : List Int)
    (statuses : List ProjectStatus) :
    ∀ (fuel : Nat) (day : Int) (ps : List SchedulerProject) (sched : List ScheduleEntry),
      (∀ p ∈ ps, GoodProj statuses p) →
      (∀ e ∈ sched, HasStatus statuses e.projectId e.subproductName) →
      ∀ e ∈ (runDaysAux cfg sd bl fuel day ps sched).schedule,
        HasStatus statuses e.projectId e.subproductName := by
  intro fuel
  induction fuel with
  | zero =>
    intro day ps sched hp hs e he
    by_cases hall : ps.all SchedulerProject.isComplete = true
    · simp only [runDaysAux, if_pos hall] at he
      exact hs e he
    · by_cases h2 : 150 < day
      · simp only [runDaysAux, if_neg hall, if_pos h2] at he
        exact hs e he
      · simp only [runDaysAux, if_neg hall, if_neg h2] at he
        exact hs e he
  | succ fuel ih =>
    intro day ps sched hp hs e he
    by_cases hall : ps.all SchedulerProject.isComplete = true
    · simp only [runDaysAux, if_pos hall] at he
      exact hs e he
    · by_cases h2 : 150 < day
      · simp only [runDaysAux, if_neg hall, if_pos h2] at he
        exact hs e he
      · have hrd := runDay_good cfg day statuses (sessionNumbers cfg)
          ⟨ps, (if day = sd then
            bl.filter (fun s => decide (1 ≤ s) && decide (s ≤ cfg.sessionsPerDay))
            else []), sched⟩ ⟨hp, hs⟩
        rcases hrun : runDay cfg day (sessionNumbers cfg)
            ⟨ps, (if day = sd then
              bl.filter (fun s => decide (1 ≤ s) && decide (s ≤ cfg.sessionsPerDay))
              else []), sched⟩ with ⟨sch, er⟩ | st0
        · simp only [runDaysAux, if_neg hall, if_neg h2, hrun] at he
          exact hrd.1 (sch, er) hrun e he
        · simp only [runDaysAux, if_neg hall, if_neg h2, hrun] at he
          have hg0 := hrd.2 st0 hrun
          exact ih (day + 1) st0.ps st0.sched hg0.1 hg0.2 e he

/-- Claim C10: a project whose id matches no status row builds to an
already-complete working project, so `runScheduler` behaves exactly as if the
project were absent from the input (same schedule, same error — in particular
it never triggers a deadline error and cannot prevent an error-free return);
moreover every returned entry's `(projectId, subproductName)` pair is backed
by some status row, so a status-less project never appears in any entry and a
step of `subTimes` absent from the statuses is never scheduled. -/
theorem runScheduler_statusless_inert (cfg : Config) (statuses : List ProjectStatus)
    (startDay : Int) (blockedSessions : List Int) :
    (∀ (l1 l2 : List Project) (p : Project),
      (∀ st ∈ statuses, st.projectId ≠ p.id) →
      runScheduler cfg (l1 ++ p :: l2) statuses startDay blockedSessions =
        runScheduler cfg (l1 ++ l2) statuses startDay blockedSessions) ∧
    (∀ (projects : List Project) (e : ScheduleEntry),
      e ∈ (runScheduler cfg projects statuses startDay blockedSessions).schedule →
      ∃ st ∈ statuses, st.projectId = e.projectId ∧
        st.subproductName = e.subproductName) := by
  constructor
  · intro l1 l2 p hnone
    show runDays cfg startDay blockedSessions startDay
        ((l1 ++ p :: l2).map fun q => buildProject cfg q statuses) [] =
      runDays cfg startDay blockedSessions startDay
        ((l1 ++ l2).map fun q => buildProject cfg q statuses) []
    rw [List.map_append, List.map_cons, List.map_append]
    rw [runDays, runDays]
    exact runDaysAux_skip cfg startDay blockedSessions (buildProject cfg p statuses)
      (buildProject_no_status cfg p statuses hnone) _ startDay
      (l1.map fun q => buildProject cfg q statuses)
      (l2.map fun q => buildProject cfg q statuses) []
  · intro projects e he
    refine runDaysAux_good cfg startDay blockedSessions statuses _ startDay
      (projects.map fun q => buildProject cfg q statuses) [] ?_ ?_ e he
    · intro q hq
      rcases List.mem_map.1 hq with ⟨p, _, hpq⟩
      rw [← hpq]
      exact buildProject_good cfg p statuses
    · intro e' he'
      simp at he'

/-- Witness for C10 at a concrete input: a status-less project is dropped
without changing the result, and every produced entry is backed by a status
row. -/
theorem runScheduler_statusless_inert_witness :
    runScheduler ⟨4, 0, 1⟩ [⟨"q", "P", 1, 5, [("A", 1)], "c"⟩, ⟨"r", "Q", 1, 5, [("A", 1)], "d"⟩]
        [⟨"q", "A", 1, 0⟩] 1 [] =
      runScheduler ⟨4, 0, 1⟩ [⟨"q", "P", 1, 5, [("A", 1)], "c"⟩]
        [⟨"q", "A", 1, 0⟩] 1 [] ∧
    ∃ st ∈ [(⟨"q", "A", 1, 0⟩ : ProjectStatus)], st.projectId = "q" ∧
      st.subproductName = "A" := by
  constructor
  · exact (runScheduler_statusless_inert ⟨4, 0, 1⟩ [⟨"q", "A", 1, 0⟩] 1 []).1
      [⟨"q", "P", 1, 5, [("A", 1)], "c"⟩] [] ⟨"r", "Q", 1, 5, [("A", 1)], "d"⟩
      (by decide)
  · exact (runScheduler_statusless_inert ⟨4, 0, 1⟩ [⟨"q", "A", 1, 0⟩] 1 []).2
      [⟨"q", "P", 1, 5, [("A", 1)], "c"⟩]
      { day := 1, session := 1, projectId := "q", projectName := "P",
        subproductName := "A", isCompleted := false, color := "c" }
      (by decide)

/-- Witness for C2 at a concrete input: with cooldown 1, two units of a
duration-2 step form atomic runs. -/
theorem runScheduler_atomic_runs_witness :
    AtomicRuns ⟨4, 1, 0⟩ [⟨"a", "A", 2, 99, [("A", 2)], "c"⟩]
      (runScheduler ⟨4, 1, 0⟩ [⟨"a", "A", 2, 99, [("A", 2)], "c"⟩]
        [⟨"a", "A", 2, 0⟩] 1 []).schedule :=
  runScheduler_atomic_runs ⟨4, 1, 0⟩ [⟨"a", "A", 2, 99, [("A", 2)], "c"⟩]
    [⟨"a", "A", 2, 0⟩] 1 [] (by decide) (by decide)

/-- Witness for C3 at a concrete input: with cooldown 1 and one project, the
cooldown-gap property holds of the produced schedule. -/
theorem runScheduler_cooldown_gaps_witness :
    CooldownGaps ⟨4, 1, 0⟩
      (runScheduler ⟨4, 1, 0⟩ [⟨"a", "A", 2, 99, [("A", 2)], "c"⟩]
        [⟨"a", "A", 2, 0⟩] 1 []).schedule :=
  runScheduler_cooldown_gaps ⟨4, 1, 0⟩ [⟨"a", "A", 2, 99, [("A", 2)], "c"⟩]
    [⟨"a", "A", 2, 0⟩] 1 [] (by decide) (by decide)

/-- Witness for C4 at a concrete input: the single produced entry of the
fully-blocked-start-day run has a session inside `[1, 4]`, and the blocked
set constrains it only if it were on the start day. -/
theorem runScheduler_capacity_witness :
    ((1 ≤ (⟨2, 1, "a", "Q", "A", false, "c"⟩ : ScheduleEntry).session ∧
      (⟨2, 1, "a", "Q", "A", false, "c"⟩ : ScheduleEntry).session ≤
        (⟨4, 0, 0⟩ : Config).sessionsPerDay) ∧
     ((⟨2, 1, "a", "Q", "A", false, "c"⟩ : ScheduleEntry).day = 1 →
      ¬ (⟨2, 1, "a", "Q", "A", false, "c"⟩ : ScheduleEntry).session ∈
        [(1 : Int), 2, 3, 4])) :=
  (runScheduler_capacity ⟨4, 0, 0⟩ [⟨"a", "Q", 1, 10, [("A", 1)], "c"⟩]
    [⟨"a", "A", 1, 0⟩] 1 [1, 2, 3, 4]).1 ⟨2, 1, "a", "Q", "A", false, "c"⟩ (by decide)

/-- Witness for C6 at a concrete input: the deadline error `("P", 1)` of the
one-day-buffer run is explained by the input order `"P"` with nominal
deadline 1, incomplete work, and an in-horizon day past its effective
deadline. -/
theorem runScheduler_deadline_error_witness :
    ∃ p ∈ [(⟨"q", "P", 1, 1, [("A", 1)], "c"⟩ : Project)], p.name = "P" ∧
      (1 : Int) = p.deadline ∧
      (buildProject ⟨4, 0, 1⟩ p [⟨"q", "A", 1, 0⟩]).isComplete = false ∧
      ∃ dy : Int, 1 ≤ dy ∧ dy ≤ 150 ∧
        p.deadline - (⟨4, 0, 1⟩ : Config).deadlineBuffer < dy :=
  runScheduler_deadline_error ⟨4, 0, 1⟩ [⟨"q", "P", 1, 1, [("A", 1)], "c"⟩]
    [⟨"q", "A", 1, 0⟩] 1 [] "P" 1 (by decide)

/-- Witness for C8 at concrete inputs: a produced entry's day lies between
the start day and 150, and a run entered past the horizon returns the
`limit` error only because an order still had incomplete work. -/
theorem runScheduler_horizon_witness :
    ((1 : Int) ≤ (⟨1, 1, "a", "Q", "A", false, "c"⟩ : ScheduleEntry).day ∧
      (⟨1, 1, "a", "Q", "A", false, "c"⟩ : ScheduleEntry).day ≤ 150) ∧
    ∃ p ∈ [(⟨"a", "Q", 1, 10, [("A", 1)], "c"⟩ : Project)],
      (buildProject ⟨4, 0, 0⟩ p [⟨"a", "A", 1, 0⟩]).isComplete = false := by
  constructor
  · exact (runScheduler_horizon ⟨4, 0, 0⟩ [⟨"a", "Q", 1, 10, [("A", 1)], "c"⟩]
      [⟨"a", "A", 1, 0⟩] 1 []).1 ⟨1, 1, "a", "Q", "A", false, "c"⟩ (by decide)
  · exact (runScheduler_horizon ⟨4, 0, 0⟩ [⟨"a", "Q", 1, 10, [("A", 1)], "c"⟩]
      [⟨"a", "A", 1, 0⟩] 151 []).2 (by decide)

/-- Witness for C5 at a concrete input: one project with a single eligible
step at the first session of day 1. -/
theorem sessionStep_commits_most_urgent_witness :
    ∃ best, pickBest 1 [wCand] = some best ∧ best ∈ [wCand] ∧
      (∀ c ∈ [wCand], priority 1 c.proj ≤ priority 1 best.proj) ∧
      (∃ i : Nat, [wCand][i]? = some best ∧ ∀ (j : Nat) (c : Candidate), j < i →
        [wCand][j]? = some c → priority 1 c.proj < priority 1 best.proj) ∧
      [wCand].Pairwise (fun c1 c2 => c1.idx < c2.idx) ∧
      (∀ c ∈ [wCand], [wCand.proj][c.idx]? = some c.proj ∧ c.proj.isComplete = false ∧
        c.subs = validSubs ⟨4, 0, 0⟩ [] 1 ((1 - 1) * (⟨4, 0, 0⟩ : Config).sessionsPerDay + 1)
          c.proj ∧ c.subs ≠ []) ∧
      ∃ bs st', pickSub best.proj best.subs = some bs ∧ bs ∈ best.subs ∧
        sessionStep ⟨4, 0, 0⟩ 1 1 ⟨[wCand.proj], [], []⟩ = .ok st' ∧
        st'.sched = [] ++ mkEntries 1 1 best.proj bs (getD best.proj.durations bs) ∧
        ∀ e ∈ mkEntries 1 1 best.proj bs (getD best.proj.durations bs),
          e.projectId = best.proj.id ∧ e.subproductName = bs :=
  sessionStep_commits_most_urgent ⟨4, 0, 0⟩ 1 1 ⟨[wCand.proj], [], []⟩ [wCand] wCand []
    rfl rfl rfl

end PQ
